import Mathlib

/-!
# LycheeMSO firmware console (`firmware/main.c`)

A shallow embedding of the line editor `readstr`, the tokenizer `get_token`
and the command dispatcher of `console_service`, followed by theorems about
them.

Modelling conventions.

* A C `char` is a Lean `Char`; the string terminator is `NUL`.
* The static array `s[64]` is a `List Char`; a `char *` into it is an offset
  (`Nat`), and `NULL` is `none`.  The C string a pointer designates is the
  run of characters from the offset up to the first `NUL` (`cstr`).
* Everything the firmware does to the outside world is recorded, in order,
  as a list of `Event`s: characters written to `stdout` and calls of the
  hardware / demo collaborators.
* `sscanf`, `strcmp`, `strchr`, `strlen`, `fputs`, `puts`, `printf` are libc
  functions; they are modelled after the C standard.
* Where a call overruns an object (the `%s` of rule 6 into `CHAN_Name[10]`)
  the trace ends in `Event.undefined`: the standard gives the program no
  behaviour from there on.
-/

namespace LycheeMSO

/-! ## Characters, C strings, events -/

/-- The C string terminator `'\0'`. -/
def NUL : Char := Char.ofNat 0

/-- Observable actions of the firmware, in program order. -/
inductive Event where
  /-- One character written to `stdout`. -/
  | out (c : Char)
  /-- Call `busy_wait(n)`. -/
  | busy_wait (n : Nat)
  /-- Call `ctrl_reset_write(v)`. -/
  | ctrl_reset_write (v : Int)
  /-- Call `leds_out_write(v)`. -/
  | leds_out_write (v : Int)
  /-- Call `donut()`. -/
  | donut
  /-- Call `helloc()`. -/
  | helloc
  /-- Call `hellocpp()`. -/
  | hellocpp
  /-- The program overran an object: from here on the C standard gives it no
  behaviour, and a trace says nothing about what follows this mark. -/
  | undefined
  deriving DecidableEq, Repr

/-- The characters written to `stdout` by a trace. -/
def stdoutOf : List Event → List Char
  | [] => []
  | Event.out c :: es => c :: stdoutOf es
  | _ :: es => stdoutOf es

/-- The side effects of a trace: every event that is not a character written
to `stdout`. -/
def effectsOf : List Event → List Event
  | [] => []
  | Event.out _ :: es => effectsOf es
  | e :: es => e :: effectsOf es

/-- The characters of a list up to (not including) the first `NUL`. -/
def untilNul : List Char → List Char
  | [] => []
  | c :: cs => if c = NUL then [] else c :: untilNul cs

/-- The C string designated by pointer `p` into memory `mem`. -/
def cstr (mem : List Char) (p : Nat) : List Char := untilNul (mem.drop p)

/-- Libc `fputs(str, stdout)` / `printf(str)` for a format without
conversions: write the characters of a C string. -/
def fputs (str : List Char) : List Event := str.map Event.out

/-- Libc `puts(str)`: the string followed by a newline. -/
def puts (str : List Char) : List Event := fputs str ++ [Event.out '\n']

/-- Libc `strlen` on a C string held in memory. -/
def strlen (mem : List Char) (p : Nat) : Nat := (cstr mem p).length

/-- First occurrence of `c` in the characters `cs`, which start at offset
`i`; the search stops at the terminator.  The terminator itself is found
when `c` is `NUL`, as in C. -/
def strchrFrom (c : Char) : List Char → Nat → Option Nat
  | [], _ => none
  | x :: xs, i =>
    if x = c then some i
    else if x = NUL then none
    else strchrFrom c xs (i + 1)

/-- Libc `strchr(p, c)` on memory: pointer to the first `c` of the C string
at `p`, or `NULL`. -/
def strchr (mem : List Char) (p : Nat) (c : Char) : Option Nat :=
  strchrFrom c (mem.drop p) p

/-- Libc `strcmp` on two C strings, up to the sign of the result (all the C
standard fixes). -/
def strcmp : List Char → List Char → Int
  | [], [] => 0
  | [], _ :: _ => -1
  | _ :: _, [] => 1
  | a :: as, b :: bs =>
    if a = b then strcmp as bs else if a < b then -1 else 1

/-! ## Line editor: `readstr` -/

/-- The static state of `readstr`: the array `s[64]` and the cursor `ptr`.
The cursor is an `int` in C; the code decrements it only when it is positive
and increments it only below 63, so it is a natural number here. -/
structure LineState where
  /-- The array `static char s[64]`. -/
  s : List Char
  /-- The cursor `static int ptr`. -/
  ptr : Nat
  deriving DecidableEq, Repr

/-- The state at program start: both statics are zero-initialised. -/
def LineState.init : LineState := { s := List.replicate 64 NUL, ptr := 0 }

/-- What one call of `readstr` does: the new static state, what it wrote to
`stdout`, and the returned pointer (`none` is `NULL`, `some p` is `s + p`). -/
structure ReadResult where
  /-- The static state after the call. -/
  st : LineState
  /-- The events of the call. -/
  events : List Event
  /-- The returned pointer. -/
  ret : Option Nat
  deriving DecidableEq, Repr

/-- The function `readstr`.  The argument `avail` is the character source:
`none` when `readchar_nonblock()` is false, `some c` when it is true and
`getchar()` then yields `c`. -/
def readstr (avail : Option Char) (st : LineState) : ReadResult :=
  match avail with
  | none => { st := st, events := [], ret := none }
  | some c =>
    if c = '\x7f' ∨ c = '\x08' then
      if st.ptr > 0 then
        { st := { s := st.s, ptr := st.ptr - 1 },
          events := fputs "\x08 \x08".toList, ret := none }
      else { st := st, events := [], ret := none }
    else if c = '\x07' then { st := st, events := [], ret := none }
    else if c = '\r' ∨ c = '\n' then
      { st := { s := st.s.set st.ptr NUL, ptr := 0 },
        events := fputs "\n".toList, ret := some 0 }
    else if st.ptr ≥ 64 - 1 then { st := st, events := [], ret := none }
    else
      { st := { s := st.s.set st.ptr c, ptr := st.ptr + 1 },
        events := fputs (untilNul [c, NUL]), ret := none }

/-! ## Tokenizer: `get_token` -/

/-- What `get_token(&str)` does: the memory after the call, the returned
pointer, and the new value of `*str`. -/
structure TokenResult where
  /-- The memory after the call. -/
  mem : List Char
  /-- The returned pointer `d`. -/
  token : Nat
  /-- The value of `*str` after the call. -/
  str : Nat
  deriving DecidableEq, Repr

/-- The function `get_token`, on memory `mem` with `*str = str`. -/
def get_token (mem : List Char) (str : Nat) : TokenResult :=
  match strchr mem str ' ' with
  | none => { mem := mem, token := str, str := str + strlen mem str }
  | some c => { mem := mem.set c NUL, token := str, str := c + 1 }

/-! ## Libc formatted input and output -/

/-- Libc `isspace` in the C locale. -/
def isspace (c : Char) : Bool :=
  decide (c = ' ' ∨ c = '\t' ∨ c = '\n' ∨ c = '\x0b' ∨ c = '\x0c' ∨ c = '\r')

/-- The character of a decimal digit. -/
def digitChar (d : Nat) : Char := Char.ofNat ('0'.toNat + d)

/-- The decimal numeral of a natural number, most significant digit first. -/
def natDecimal (n : Nat) : List Char :=
  if n = 0 then ['0'] else (Nat.digits 10 n).reverse.map digitChar

/-- What `printf("%d", v)` writes for the integer `v`. -/
def fmt_d (v : Int) : List Char :=
  if v < 0 then '-' :: natDecimal v.natAbs else natDecimal v.natAbs

/-- The directives of a `scanf` format, restricted to the ones the firmware
uses. -/
inductive Directive where
  /-- White space in the format: skips any amount of input white space. -/
  | ws
  /-- An ordinary character: must be the next input character. -/
  | lit (c : Char)
  /-- The conversion `%d`. -/
  | conv_d
  /-- The conversion `%i`. -/
  | conv_i
  /-- The conversion `%s`. -/
  | conv_s
  /-- The conversion `%n`. -/
  | conv_n
  deriving DecidableEq, Repr

/-- Split a format string into its directives. -/
def parseFormat : List Char → List Directive
  | [] => []
  | c :: r =>
    if c = '%' then
      match r with
      | [] => [Directive.lit c]
      | x :: r' =>
        if x = 'd' then Directive.conv_d :: parseFormat r'
        else if x = 'i' then Directive.conv_i :: parseFormat r'
        else if x = 's' then Directive.conv_s :: parseFormat r'
        else if x = 'n' then Directive.conv_n :: parseFormat r'
        else Directive.lit c :: Directive.lit x :: parseFormat r'
    else if isspace c then Directive.ws :: parseFormat r
    else Directive.lit c :: parseFormat r

/-- The value of a character as a digit (bases up to 16). -/
def digitOf (c : Char) : Option Nat :=
  if '0' ≤ c ∧ c ≤ '9' then some (c.toNat - '0'.toNat)
  else if 'a' ≤ c ∧ c ≤ 'f' then some (c.toNat - 'a'.toNat + 10)
  else if 'A' ≤ c ∧ c ≤ 'F' then some (c.toNat - 'A'.toNat + 10)
  else none

/-- The values of the leading digits of the input in the given base. -/
def scanDigits (base : Nat) : List Char → List Nat
  | [] => []
  | c :: r =>
    match digitOf c with
    | some v => if v < base then v :: scanDigits base r else []
    | none => []

/-- The number a digit sequence denotes, most significant digit first. -/
def digitsValue (base : Nat) (ds : List Nat) : Nat :=
  ds.foldl (fun a d => a * base + d) 0

/-- The unsigned part of an integer input item: its value and how many
characters it takes.  With `isI` (conversion `%i`) a leading `0x`/`0X`
selects base 16 and a leading `0` base 8; otherwise the base is 10.  `none`
is a matching failure: no digit where one is required. -/
def scanMagnitude (isI : Bool) (inp : List Char) : Option (Nat × Nat) :=
  let hex (r : List Char) : Option (Nat × Nat) :=
    let ds := scanDigits 16 r
    if ds = [] then none else some (digitsValue 16 ds, 2 + ds.length)
  let oct : Option (Nat × Nat) :=
    let ds := scanDigits 8 inp
    some (digitsValue 8 ds, ds.length)
  let dec : Option (Nat × Nat) :=
    let ds := scanDigits 10 inp
    if ds = [] then none else some (digitsValue 10 ds, ds.length)
  match isI, inp with
  | true, c :: r =>
    if c = '0' then
      match r with
      | x :: r' => if x = 'x' ∨ x = 'X' then hex r' else oct
      | [] => oct
    else dec
  | _, _ => dec

/-- An integer input item with its optional sign: value and length. -/
def scanInteger (isI : Bool) (inp : List Char) : Option (Int × Nat) :=
  match inp with
  | [] => none
  | c :: r =>
    if c = '-' then (scanMagnitude isI r).map (fun p => (-(p.1 : Int), p.2 + 1))
    else if c = '+' then (scanMagnitude isI r).map (fun p => ((p.1 : Int), p.2 + 1))
    else (scanMagnitude isI inp).map (fun p => ((p.1 : Int), p.2))

/-- Storing a scanned value in an `int`: two's complement, 32 bits.  (The C
standard leaves a value out of range undefined.) -/
def toInt32 (v : Int) : Int := (v + 2 ^ 31) % 2 ^ 32 - 2 ^ 31

/-- The progress of a `sscanf` call. -/
structure ScanState where
  /-- The input not yet read. -/
  inp : List Char
  /-- The number of input characters read so far. -/
  nread : Nat
  /-- The values stored through `%d` / `%i`, in order. -/
  ints : List Int
  /-- The strings stored through `%s`, in order. -/
  strs : List (List Char)
  /-- The values stored through `%n`, in order. -/
  ns : List Nat
  deriving DecidableEq, Repr

/-- The outcome of a `sscanf` call: its return value (`-1` is `EOF`) and
what it stored. -/
structure ScanResult where
  /-- The return value. -/
  ret : Int
  /-- The values stored through `%d` / `%i`. -/
  ints : List Int
  /-- The strings stored through `%s`. -/
  strs : List (List Char)
  /-- The values stored through `%n`. -/
  ns : List Nat
  deriving DecidableEq, Repr

/-- The number of input items assigned so far (`%n` does not count). -/
def ScanState.assigned (σ : ScanState) : Nat := σ.ints.length + σ.strs.length

/-- The scan ends here, by the end of the format or a matching failure. -/
def ScanState.stop (σ : ScanState) : ScanResult :=
  { ret := σ.assigned, ints := σ.ints, strs := σ.strs, ns := σ.ns }

/-- The scan ends here by an input failure (end of the string): `EOF` when
no conversion has completed. -/
def ScanState.inputFailure (σ : ScanState) : ScanResult :=
  { ret := if σ.assigned = 0 then -1 else σ.assigned,
    ints := σ.ints, strs := σ.strs, ns := σ.ns }

/-- Skip input white space. -/
def ScanState.skipWs (σ : ScanState) : ScanState :=
  { σ with inp := σ.inp.dropWhile isspace,
           nread := σ.nread + (σ.inp.takeWhile isspace).length }

/-- Read `k` characters of input. -/
def ScanState.advance (σ : ScanState) (k : Nat) : ScanState :=
  { σ with inp := σ.inp.drop k, nread := σ.nread + k }

/-- Execute the directives of a format in order. -/
def scanLoop : List Directive → ScanState → ScanResult
  | [], σ => σ.stop
  | Directive.ws :: ds, σ => scanLoop ds σ.skipWs
  | Directive.lit c :: ds, σ =>
    match σ.inp with
    | [] => σ.inputFailure
    | x :: _ => if x = c then scanLoop ds (σ.advance 1) else σ.stop
  | Directive.conv_n :: ds, σ => scanLoop ds { σ with ns := σ.ns ++ [σ.nread] }
  | Directive.conv_d :: ds, σ =>
    let σ1 := σ.skipWs
    if σ1.inp = [] then σ1.inputFailure
    else
      match scanInteger false σ1.inp with
      | none => σ1.stop
      | some (v, k) => scanLoop ds { σ1.advance k with ints := σ1.ints ++ [toInt32 v] }
  | Directive.conv_i :: ds, σ =>
    let σ1 := σ.skipWs
    if σ1.inp = [] then σ1.inputFailure
    else
      match scanInteger true σ1.inp with
      | none => σ1.stop
      | some (v, k) => scanLoop ds { σ1.advance k with ints := σ1.ints ++ [toInt32 v] }
  | Directive.conv_s :: ds, σ =>
    let σ1 := σ.skipWs
    if σ1.inp = [] then σ1.inputFailure
    else
      let w := σ1.inp.takeWhile (fun c => !isspace c)
      scanLoop ds { σ1.advance w.length with strs := σ1.strs ++ [w] }

/-- Libc `sscanf(str, format, ...)` on a C string. -/
def sscanf (str : List Char) (format : List Char) : ScanResult :=
  scanLoop (parseFormat format)
    { inp := str, nread := 0, ints := [], strs := [], ns := [] }

/-- The value of an `int` variable after a scan that was given its address
for a `%n`: the stored count if the scan reached the `%n`, else the value it
had before. -/
def ScanResult.store_n (r : ScanResult) (old : Int) : Int :=
  match r.ns.getLast? with
  | some n => (n : Int)
  | none => old

/-- The value of an `int` variable after a scan that was given its address
for a `%d`: the stored value if the conversion happened, else the value it
had before. -/
def ScanResult.store_d (r : ScanResult) (old : Int) : Int :=
  match r.ints.getLast? with
  | some v => v
  | none => old

/-- Whether a scan stored through `%s` an item that does not fit the array
`char CHAN_Name[10]`: 10 characters or more, which with the terminator is
more than 10 bytes.  The format gives `%s` no field width. -/
def chanNameOverrun (r : ScanResult) : Bool :=
  r.strs.any (fun w => decide (10 ≤ w.length))

/-! ## Commands -/

/-- The build-time configuration: the two preprocessor flags and the two
predefined macros the help text quotes. -/
structure Config where
  /-- Whether `CSR_LEDS_BASE` is defined. -/
  csr_leds_base : Bool
  /-- Whether `WITH_CXX` is defined. -/
  with_cxx : Bool
  /-- The expansion of `__DATE__`. -/
  date : List Char
  /-- The expansion of `__TIME__`. -/
  time : List Char

/-- The local variables `console_service` declares without initialising:
their values before the first store are indeterminate. -/
structure Locals where
  /-- The variable `int pos`. -/
  pos : Int
  /-- The variable `int lev`. -/
  lev : Int

/-- The function `help`. -/
def help (cfg : Config) : List Event :=
  puts ("\nLiteX minimal demo app built ".toList ++ cfg.date ++ " ".toList
        ++ cfg.time ++ "\n".toList)
  ++ puts "Available commands:".toList
  ++ puts "help               - Show this command".toList
  ++ puts "clear              - clear the screen".toList
  ++ puts "reboot             - Reboot CPU".toList
  ++ (if cfg.csr_leds_base then puts "led                - Led demo".toList else [])
  ++ puts "donut              - Spinning Donut demo".toList
  ++ puts "helloc             - Hello C".toList
  ++ (if cfg.with_cxx then puts "hellocpp           - Hello C++".toList else [])

/-- The function `reboot_cmd`. -/
def reboot_cmd : List Event := [Event.ctrl_reset_write 1]

/-- The function `led_cmd`. -/
def led_cmd : List Event :=
  fputs "Led demo...\n".toList
  ++ fputs "Counter mode...\n".toList
  ++ (List.range 32).flatMap (fun i => [Event.leds_out_write i, Event.busy_wait 100])
  ++ fputs "Shift mode...\n".toList
  ++ (List.range 4).flatMap (fun i => [Event.leds_out_write (1 <<< i), Event.busy_wait 200])
  ++ (List.range 4).flatMap
      (fun i => [Event.leds_out_write (1 <<< (3 - i)), Event.busy_wait 200])
  ++ fputs "Dance mode...\n".toList
  ++ (List.range 4).flatMap
      (fun _ => [Event.leds_out_write 0x55, Event.busy_wait 200,
                 Event.leds_out_write 0xaa, Event.busy_wait 200])

/-- The function `donut_cmd`. -/
def donut_cmd : List Event := fputs "Donut demo...\n".toList ++ [Event.donut]

/-- The function `helloc_cmd`. -/
def helloc_cmd : List Event := fputs "Hello C demo...\n".toList ++ [Event.helloc]

/-- The function `hellocpp_cmd`. -/
def hellocpp_cmd : List Event := fputs "Hello C++ demo...\n".toList ++ [Event.hellocpp]

/-- The loop of the `WAV:DATAQ` branch. -/
def wav_data : List Event :=
  (List.range 2000).flatMap
    (fun i => fputs (fmt_d ((i &&& 0xF : Nat) : Int)) ++ [Event.busy_wait 1]
              ++ fputs "\n".toList)

/-- The command chain of `console_service` (from the first `strcmp` on),
for the C string `token`.  The comparison `pos == strlen(token)` is between
an `int` and a `size_t`; a negative `pos` converts to a value above any
string length, so comparing as integers agrees with it.  The variables
`CHAN` and `CHAN_Name` are written by the scans and never read.  The scan
of rule 6 stores its `%s` item in `char CHAN_Name[10]` without a field
width: when the item does not fit, the call overruns the array and the
trace ends in `Event.undefined`. -/
def dispatch (cfg : Config) (u : Locals) (token : List Char) : List Event :=
  if strcmp token "WAV:DATAQ".toList = 0 then wav_data
  else if strcmp token "help".toList = 0 then help cfg
  else if strcmp token "reboot".toList = 0 then reboot_cmd
  else if strcmp token "*IDN?".toList = 0 then
    fputs "SD,SadOscilloscope,0,0.01-0.0-0.0\n".toList
  else
    let r5 := sscanf token ":ch%i:DISPQ%n".toList
    let pos5 := r5.store_n u.pos
    if r5.ret = 1 ∧ pos5 = (token.length : Int) then fputs "1\n".toList
    else
      let r6 := sscanf token "WAV:SOUR %s%n".toList
      let pos6 := r6.store_n pos5
      if chanNameOverrun r6 = true then [Event.undefined]
      else if r6.ret = 1 ∧ pos6 = (token.length : Int) then []
      else if strcmp token "WAV:PREQ".toList = 0 then
        fputs "0,2,1000,1,1e-6,-3.e-03,0,1.0,0,0".toList
      else if strcmp token ":TRIG:MODEQ".toList = 0 then fputs "EDGE\n".toList
      else if strcmp token ":TRIG:STATQ".toList = 0 then fputs "RUN\n".toList
      else if strcmp token ":TRIG:EDGE:SOURQ".toList = 0 then fputs "CHAN1\n".toList
      else
        let r11 := sscanf token "TRIG:EDGE:LEV  %d".toList
        if r11.ret = 1 then
          [Event.leds_out_write (r11.store_d u.lev)] ++ fputs "LEVVV\n".toList
        else if strcmp token ":TRIG:EDGE:SLOPEQ".toList = 0 then fputs "POS\n".toList
        else if strcmp token ":TRIG:EDGE:LEVQ".toList = 0 then fputs "0\n".toList
        else if strcmp token "clear".toList = 0 then fputs "\x1b[1;1H\x1b[2J".toList
        else if strcmp token "led".toList = 0 ∧ cfg.csr_leds_base then led_cmd
        else if strcmp token "donut".toList = 0 then donut_cmd
        else if strcmp token "helloc".toList = 0 then helloc_cmd
        else if strcmp token "hellocpp".toList = 0 ∧ cfg.with_cxx then hellocpp_cmd
        else fputs "Error!\n".toList

/-- What one call of `console_service` does: the static state after it and
the events of the call. -/
structure ServiceResult where
  /-- The static state of the line editor after the call. -/
  st : LineState
  /-- The events of the call. -/
  events : List Event

/-- The function `console_service`: one poll of the line editor and, when it
hands over a line, the tokenizer and the command chain. -/
def console_service (cfg : Config) (u : Locals) (avail : Option Char)
    (st : LineState) : ServiceResult :=
  let r := readstr avail st
  match r.ret with
  | none => { st := r.st, events := r.events }
  | some str =>
    let t := get_token r.st.s str
    { st := { s := t.mem, ptr := r.st.ptr },
      events := r.events ++ dispatch cfg u (cstr t.mem t.token) }

/-! ## Driving the functions with a sequence of keystrokes -/

/-- Poll `readstr` once per keystroke; the results of the polls in order. -/
def pollAll : LineState → List Char → List ReadResult
  | _, [] => []
  | st, c :: cs => readstr (some c) st :: pollAll (readstr (some c) st).st cs

/-- The line-editor state after polling `readstr` once per keystroke. -/
def feed : LineState → List Char → LineState
  | st, [] => st
  | st, c :: cs => feed (readstr (some c) st).st cs

/-- The main loop run over a sequence of keystrokes, one call of
`console_service` per keystroke: the events of all the calls in order. -/
def serve (cfg : Config) (u : Locals) : LineState → List Char → List Event
  | _, [] => []
  | st, c :: cs =>
    (console_service cfg u (some c) st).events
      ++ serve cfg u (console_service cfg u (some c) st).st cs

/-! ## Vocabulary of the theorems -/

/-- The characters that reach the `default` case of the `switch` in
`readstr`: neither delete (`0x7f`, `0x08`), bell (`0x07`), CR nor LF. -/
def ordinary (c : Char) : Prop :=
  c ≠ '\x7f' ∧ c ≠ '\x08' ∧ c ≠ '\x07' ∧ c ≠ '\r' ∧ c ≠ '\n'

instance (c : Char) : Decidable (ordinary c) := by
  unfold ordinary; exact inferInstance

/-- The states of the line editor the program can be in: the initial state,
and the state after any call of `readstr` or of `console_service` (which
polls `readstr` and lets `get_token` write into the buffer) from such a
state. -/
inductive Reachable : LineState → Prop where
  | init : Reachable LineState.init
  | poll (avail : Option Char) (st : LineState) :
      Reachable st → Reachable (readstr avail st).st
  | service (cfg : Config) (u : Locals) (avail : Option Char) (st : LineState) :
      Reachable st → Reachable (console_service cfg u avail st).st

/-- The token `console_service` passes to its command chain on this poll,
if the poll completes a line. -/
def tokenOf (avail : Option Char) (st : LineState) : Option (List Char) :=
  match (readstr avail st).ret with
  | none => none
  | some str =>
    some (cstr (get_token (readstr avail st).st.s str).mem
      (get_token (readstr avail st).st.s str).token)

/-- The number of keystrokes that are neither delete nor bell. -/
def acceptedCount (cs : List Char) : Nat :=
  cs.countP (fun c => decide (c ≠ '\x7f' ∧ c ≠ '\x08' ∧ c ≠ '\x07'))

/-- The number of polls that wrote the erase sequence backspace, space,
backspace. -/
def eraseCount (rs : List ReadResult) : Nat :=
  rs.countP (fun r => decide (r.events = fputs "\x08 \x08".toList))

/-- An input that cannot continue a numeral: empty, or beginning with a
character that is no digit and not the `x` of a hexadecimal marker. -/
def endsNumeral (r : List Char) : Prop :=
  ∀ x r', r = x :: r' → digitOf x = none ∧ x ≠ 'x' ∧ x ≠ 'X'

/-- One row of the rule table. -/
structure Rule where
  /-- The number of the rule in the declared order. -/
  order : Nat
  /-- Whether the token satisfies the match condition of the rule. -/
  hit : Bool
  /-- What the rule does when it is taken. -/
  action : List Event

/-- The rule table with the match conditions in the words of the
specification (section 4.3, and the paragraph on formatted matchers): an
exact rule is hit by its keyword; rules 5 and 6 are hit when the scan parses
the field and the count of consumed characters it reports is the full
length of the token; rule 11 is hit when the scan parses the integer.  No
uninitialised variable enters these conditions. -/
def specTable (cfg : Config) (token : List Char) : List Rule :=
  [ { order := 1, hit := decide (token = "WAV:DATAQ".toList), action := wav_data },
    { order := 2, hit := decide (token = "help".toList), action := help cfg },
    { order := 3, hit := decide (token = "reboot".toList), action := reboot_cmd },
    { order := 4, hit := decide (token = "*IDN?".toList),
      action := fputs "SD,SadOscilloscope,0,0.01-0.0-0.0\n".toList },
    { order := 5,
      hit := decide ((sscanf token ":ch%i:DISPQ%n".toList).ret = 1
        ∧ (sscanf token ":ch%i:DISPQ%n".toList).ns = [token.length]),
      action := fputs "1\n".toList },
    { order := 6,
      hit := decide ((sscanf token "WAV:SOUR %s%n".toList).ret = 1
        ∧ (sscanf token "WAV:SOUR %s%n".toList).ns = [token.length]),
      action := [] },
    { order := 7, hit := decide (token = "WAV:PREQ".toList),
      action := fputs "0,2,1000,1,1e-6,-3.e-03,0,1.0,0,0".toList },
    { order := 8, hit := decide (token = ":TRIG:MODEQ".toList),
      action := fputs "EDGE\n".toList },
    { order := 9, hit := decide (token = ":TRIG:STATQ".toList),
      action := fputs "RUN\n".toList },
    { order := 10, hit := decide (token = ":TRIG:EDGE:SOURQ".toList),
      action := fputs "CHAN1\n".toList },
    { order := 11, hit := decide ((sscanf token "TRIG:EDGE:LEV  %d".toList).ret = 1),
      action := [Event.leds_out_write
                  ((sscanf token "TRIG:EDGE:LEV  %d".toList).store_d 0)]
                ++ fputs "LEVVV\n".toList },
    { order := 12, hit := decide (token = ":TRIG:EDGE:SLOPEQ".toList),
      action := fputs "POS\n".toList },
    { order := 13, hit := decide (token = ":TRIG:EDGE:LEVQ".toList),
      action := fputs "0\n".toList },
    { order := 14, hit := decide (token = "clear".toList),
      action := fputs "\x1b[1;1H\x1b[2J".toList },
    { order := 15, hit := decide (token = "led".toList ∧ cfg.csr_leds_base = true),
      action := led_cmd },
    { order := 16, hit := decide (token = "donut".toList), action := donut_cmd },
    { order := 17, hit := decide (token = "helloc".toList), action := helloc_cmd },
    { order := 18, hit := decide (token = "hellocpp".toList ∧ cfg.with_cxx = true),
      action := hellocpp_cmd } ]

/-- First match wins: the action of the first rule of the list that the
token hits, and the fallback when there is none. -/
def firstMatch : List Rule → List Event → List Event
  | [], fallback => fallback
  | r :: rs, fallback => if r.hit then r.action else firstMatch rs fallback

theorem untilNul_append_nul (a r : List Char) (h : NUL ∉ a) :
    untilNul (a ++ NUL :: r) = a := by
  induction a with
  | nil => simp [untilNul]
  | cons x xs ih =>
    have hx : x ≠ NUL := fun e => h (by simp [e])
    have hxs : NUL ∉ xs := fun e => h (by simp [e])
    simp [untilNul, hx, ih hxs]

theorem untilNul_of_not_mem (a : List Char) (h : NUL ∉ a) : untilNul a = a := by
  induction a with
  | nil => simp [untilNul]
  | cons x xs ih =>
    have hx : x ≠ NUL := fun e => h (by simp [e])
    have hxs : NUL ∉ xs := fun e => h (by simp [e])
    simp [untilNul, hx, ih hxs]

theorem cstr_append (pre x : List Char) : cstr (pre ++ x) pre.length = untilNul x := by
  simp [cstr]

theorem strchrFrom_found (c : Char) (a r : List Char) (i : Nat)
    (hc : c ∉ a) (hnul : NUL ∉ a) :
    strchrFrom c (a ++ c :: r) i = some (i + a.length) := by
  induction a generalizing i with
  | nil => simp [strchrFrom]
  | cons x xs ih =>
    have hx : x ≠ c := fun e => hc (by simp [e])
    have hx0 : x ≠ NUL := fun e => hnul (by simp [e])
    have h1 : c ∉ xs := fun e => hc (by simp [e])
    have h2 : NUL ∉ xs := fun e => hnul (by simp [e])
    simp [strchrFrom, hx, hx0, ih (i + 1) h1 h2]
    omega

theorem strchrFrom_absent (c : Char) (a r : List Char) (i : Nat)
    (hc : c ∉ a) (hnul : NUL ∉ a) (hne : c ≠ NUL) :
    strchrFrom c (a ++ NUL :: r) i = none := by
  induction a generalizing i with
  | nil => simp [strchrFrom, Ne.symm hne]
  | cons x xs ih =>
    have hx : x ≠ c := fun e => hc (by simp [e])
    have hx0 : x ≠ NUL := fun e => hnul (by simp [e])
    have h1 : c ∉ xs := fun e => hc (by simp [e])
    have h2 : NUL ∉ xs := fun e => hnul (by simp [e])
    simp [strchrFrom, hx, hx0, ih (i + 1) h1 h2]

theorem set_append_mid (pre a r : List Char) (c v : Char) :
    (pre ++ (a ++ c :: r)).set (pre.length + a.length) v = pre ++ (a ++ v :: r) := by
  induction pre with
  | nil =>
    induction a with
    | nil => simp
    | cons x xs ih => simp
  | cons p ps ih =>
    have : (p :: ps).length + a.length = (ps.length + a.length) + 1 := by
      simp; omega
    rw [this]
    simp

theorem space_ne_nul : ' ' ≠ NUL := by decide

/-- The split of a list at its first space. -/
theorem split_first_space (line : List Char) (h : ' ' ∈ line) :
    line.takeWhile (fun c => decide (c ≠ ' ')) ++ ' ' ::
      (line.dropWhile (fun c => decide (c ≠ ' '))).drop 1 = line := by
  induction line with
  | nil => simp at h
  | cons x xs ih =>
    by_cases hx : x = ' '
    · simp [hx]
    · have h' : ' ' ∈ xs := by
        rcases List.mem_cons.mp h with e | e
        · exact absurd e.symm hx
        · exact e
      have h2 := ih h'
      simp only [List.takeWhile, List.dropWhile, hx, ne_eq, not_false_eq_true, decide_True,
        List.cons_append, List.cons.injEq, true_and]
      exact h2

theorem space_not_mem_takeWhile (line : List Char) :
    ' ' ∉ line.takeWhile (fun c => decide (c ≠ ' ')) := by
  intro h
  have := List.mem_takeWhile_imp h
  simp at this

/-- The memory after `get_token` when the line holds a space. -/
theorem get_token_space_eq (pre a b post : List Char)
    (ha : ' ' ∉ a) (hnul : NUL ∉ a) :
    get_token (pre ++ (a ++ ' ' :: (b ++ NUL :: post))) pre.length =
      { mem := pre ++ (a ++ NUL :: (b ++ NUL :: post)), token := pre.length,
        str := pre.length + a.length + 1 } := by
  have h1 : strchr (pre ++ (a ++ ' ' :: (b ++ NUL :: post))) pre.length ' '
      = some (pre.length + a.length) := by
    simp [strchr, strchrFrom_found ' ' a _ pre.length ha hnul]
  simp [get_token, h1, set_append_mid]

/-- The result of `get_token` when the line holds no space. -/
theorem get_token_nospace_eq (pre line post : List Char)
    (hsp : ' ' ∉ line) (hnul : NUL ∉ line) :
    get_token (pre ++ (line ++ NUL :: post)) pre.length =
      { mem := pre ++ (line ++ NUL :: post), token := pre.length,
        str := pre.length + line.length } := by
  have h1 : strchr (pre ++ (line ++ NUL :: post)) pre.length ' ' = none := by
    simp [strchr, strchrFrom_absent ' ' line _ pre.length hsp hnul space_ne_nul]
  simp [get_token, h1, strlen, cstr, untilNul_append_nul line post hnul]

/-! ## Claims about the tokenizer -/

/-- C1: when the C string `line` at `*str` (stored after `pre`, terminated by
`NUL`) contains a space, `get_token` returns as token the prefix of the line
before its first space and leaves in `*str` the suffix after that space: the
token holds no space and token, space, remainder make up the line again. -/
theorem get_token_first_space (pre line post : List Char)
    (hnul : NUL ∉ line) (hsp : ' ' ∈ line) :
    (get_token (pre ++ (line ++ NUL :: post)) pre.length).token = pre.length
    ∧ cstr (get_token (pre ++ (line ++ NUL :: post)) pre.length).mem
        (get_token (pre ++ (line ++ NUL :: post)) pre.length).token
        = line.takeWhile (fun c => decide (c ≠ ' '))
    ∧ cstr (get_token (pre ++ (line ++ NUL :: post)) pre.length).mem
        (get_token (pre ++ (line ++ NUL :: post)) pre.length).str
        = (line.dropWhile (fun c => decide (c ≠ ' '))).drop 1
    ∧ ' ' ∉ line.takeWhile (fun c => decide (c ≠ ' '))
    ∧ line.takeWhile (fun c => decide (c ≠ ' ')) ++ ' ' ::
        (line.dropWhile (fun c => decide (c ≠ ' '))).drop 1 = line := by
  have hsplit := split_first_space line hsp
  have hns := space_not_mem_takeWhile line
  generalize line.takeWhile (fun c => decide (c ≠ ' ')) = a at hsplit hns ⊢
  generalize (line.dropWhile (fun c => decide (c ≠ ' '))).drop 1 = b at hsplit ⊢
  subst hsplit
  have ha0 : NUL ∉ a := fun e => hnul (by simp [e])
  have hb0 : NUL ∉ b := fun e => hnul (by simp [e])
  have hmem : pre ++ (a ++ ' ' :: b ++ NUL :: post)
      = pre ++ (a ++ ' ' :: (b ++ NUL :: post)) := by simp
  rw [hmem, get_token_space_eq pre a b post hns ha0]
  refine ⟨rfl, ?_, ?_, hns, rfl⟩
  · show cstr (pre ++ (a ++ NUL :: (b ++ NUL :: post))) pre.length = a
    rw [cstr_append, untilNul_append_nul a _ ha0]
  · show cstr (pre ++ (a ++ NUL :: (b ++ NUL :: post))) (pre.length + a.length + 1) = b
    have : pre ++ (a ++ NUL :: (b ++ NUL :: post))
        = (pre ++ a ++ [NUL]) ++ (b ++ NUL :: post) := by simp
    have hl : pre.length + a.length + 1 = (pre ++ a ++ [NUL]).length := by
      simp only [List.length_append, List.length_singleton]
    rw [this, hl, cstr_append, untilNul_append_nul b _ hb0]

/-- Witness for C1: the line `WAV:SOUR CHAN1 x` stored at the start of a
buffer. -/
theorem get_token_first_space_witness :
    cstr (get_token ([] ++ ("WAV:SOUR CHAN1 x".toList ++ NUL :: [])) 0).mem
        (get_token ([] ++ ("WAV:SOUR CHAN1 x".toList ++ NUL :: [])) 0).token
        = "WAV:SOUR".toList
    ∧ cstr (get_token ([] ++ ("WAV:SOUR CHAN1 x".toList ++ NUL :: [])) 0).mem
        (get_token ([] ++ ("WAV:SOUR CHAN1 x".toList ++ NUL :: [])) 0).str
        = "CHAN1 x".toList := by
  have h := get_token_first_space [] "WAV:SOUR CHAN1 x".toList []
    (by decide) (by decide)
  refine ⟨h.2.1.trans (by decide), h.2.2.1.trans (by decide)⟩

/-- C2: when the C string `line` at `*str` contains no space (the empty line
included), `get_token` returns the whole line as token and leaves `*str` at
the empty string. -/
theorem get_token_no_space (pre line post : List Char)
    (hnul : NUL ∉ line) (hsp : ' ' ∉ line) :
    (get_token (pre ++ (line ++ NUL :: post)) pre.length).token = pre.length
    ∧ cstr (get_token (pre ++ (line ++ NUL :: post)) pre.length).mem
        (get_token (pre ++ (line ++ NUL :: post)) pre.length).token = line
    ∧ cstr (get_token (pre ++ (line ++ NUL :: post)) pre.length).mem
        (get_token (pre ++ (line ++ NUL :: post)) pre.length).str = []
    ∧ (get_token (pre ++ (line ++ NUL :: post)) pre.length).mem
        = pre ++ (line ++ NUL :: post) := by
  rw [get_token_nospace_eq pre line post hsp hnul]
  refine ⟨rfl, ?_, ?_, rfl⟩
  · show cstr (pre ++ (line ++ NUL :: post)) pre.length = line
    rw [cstr_append, untilNul_append_nul line _ hnul]
  · show cstr (pre ++ (line ++ NUL :: post)) (pre.length + line.length) = []
    have : pre ++ (line ++ NUL :: post) = (pre ++ line) ++ (NUL :: post) := by simp
    have hl : pre.length + line.length = (pre ++ line).length := by simp
    rw [this, hl, cstr_append]
    simp [untilNul]

/-- Witness for C2: the empty line, and the line `*IDN?`. -/
theorem get_token_no_space_witness :
    cstr (get_token ([] ++ ([] ++ NUL :: [])) 0).mem
        (get_token ([] ++ ([] ++ NUL :: [])) 0).token = []
    ∧ cstr (get_token ([] ++ ("*IDN?".toList ++ NUL :: [])) 0).mem
        (get_token ([] ++ ("*IDN?".toList ++ NUL :: [])) 0).token = "*IDN?".toList := by
  exact ⟨(get_token_no_space [] [] [] (by decide) (by decide)).2.1,
         (get_token_no_space [] "*IDN?".toList [] (by decide) (by decide)).2.1⟩

/-! ## The line editor -/

theorem untilNul_append_nul_left (a r : List Char) :
    untilNul (a ++ NUL :: r) = untilNul a := by
  induction a with
  | nil => simp [untilNul]
  | cons x xs ih =>
    by_cases hx : x = NUL
    · simp [untilNul, hx]
    · simp [untilNul, hx, ih]

theorem readstr_ordinary (c : Char) (st : LineState) (hc : ordinary c)
    (hp : st.ptr < 63) :
    readstr (some c) st =
      { st := { s := st.s.set st.ptr c, ptr := st.ptr + 1 },
        events := fputs (untilNul [c, NUL]), ret := none } := by
  obtain ⟨h1, h2, h3, h4, h5⟩ := hc
  have hp' : ¬ (st.ptr ≥ 64 - 1) := by omega
  simp only [readstr, h1, h2, h3, h4, h5, or_self, if_false, hp']

theorem readstr_ordinary_full (c : Char) (st : LineState) (hc : ordinary c)
    (hp : 63 ≤ st.ptr) :
    readstr (some c) st = { st := st, events := [], ret := none } := by
  obtain ⟨h1, h2, h3, h4, h5⟩ := hc
  have hp' : st.ptr ≥ 64 - 1 := by omega
  simp only [readstr, h1, h2, h3, h4, h5, or_self, if_false, hp', if_true]

theorem readstr_cr_lf_eq (c : Char) (st : LineState) (hc : c = '\r' ∨ c = '\n') :
    readstr (some c) st =
      { st := { s := st.s.set st.ptr NUL, ptr := 0 },
        events := fputs "\n".toList, ret := some 0 } := by
  rcases hc with h | h <;> subst h <;> rfl

theorem readstr_ret_none (a : Option Char) (st : LineState)
    (h1 : a ≠ some '\r') (h2 : a ≠ some '\n') : (readstr a st).ret = none := by
  cases a with
  | none => rfl
  | some c =>
    have hr : c ≠ '\r' := fun e => h1 (by rw [e])
    have hn : c ≠ '\n' := fun e => h2 (by rw [e])
    unfold readstr
    simp only [hr, hn, or_self, if_false]
    split_ifs <;> rfl

theorem readstr_length (a : Option Char) (st : LineState) :
    (readstr a st).st.s.length = st.s.length := by
  cases a with
  | none => rfl
  | some c =>
    simp only [readstr]
    repeat' split
    all_goals simp

theorem readstr_ptr_le (a : Option Char) (st : LineState) (h : st.ptr ≤ 63) :
    (readstr a st).st.ptr ≤ 63 := by
  cases a with
  | none => exact h
  | some c =>
    simp only [readstr]
    repeat' split
    all_goals simp only
    all_goals omega

/-- Typing ordinary characters into free slots of the buffer. -/
theorem feed_ordinary (cs : List Char) :
    ∀ (pre mid post : List Char), mid.length = cs.length →
      pre.length + cs.length ≤ 63 → (∀ c ∈ cs, ordinary c) →
      feed { s := pre ++ (mid ++ post), ptr := pre.length } cs =
        { s := pre ++ (cs ++ post), ptr := pre.length + cs.length } := by
  induction cs with
  | nil =>
    intro pre mid post hm _ _
    have : mid = [] := List.length_eq_zero.mp hm
    simp [feed, this]
  | cons c cs ih =>
    intro pre mid post hm hl hord
    cases mid with
    | nil => simp at hm
    | cons m mid =>
      have hc : ordinary c := hord c (by simp)
      have hp : pre.length < 63 := by simp at hl; omega
      have hset : (pre ++ (m :: mid ++ post)).set pre.length c
          = (pre ++ [c]) ++ (mid ++ post) := by
        have := set_append_mid pre [] (mid ++ post) m c
        simp at this ⊢
      have hstep : readstr (some c) { s := pre ++ (m :: mid ++ post), ptr := pre.length }
          = { st := { s := (pre ++ [c]) ++ (mid ++ post), ptr := (pre ++ [c]).length },
              events := fputs (untilNul [c, NUL]), ret := none } := by
        rw [readstr_ordinary c _ hc hp]
        simp only [hset, List.length_append, List.length_singleton]
      have hih := ih (pre ++ [c]) mid post (by simpa using hm)
        (by simp at hl ⊢; omega) (fun x hx => hord x (by simp [hx]))
      simp only [feed, hstep, hih]
      simp
      omega

/-- A 64-slot buffer splits into its first 63 slots and its last slot. -/
theorem buffer_split (s : List Char) (h : s.length = 64) :
    ∃ mid x, mid.length = 63 ∧ s = mid ++ [x] := by
  refine ⟨s.take 63, s.getLast (by intro e; simp [e] at h), ?_, ?_⟩
  · simp [h]
  · have h1 : s.take 63 = s.dropLast := by
      rw [List.dropLast_eq_take, h]
    rw [h1, List.dropLast_append_getLast]

theorem feed_ordinary_full (extra : List Char) (st : LineState) (hp : 63 ≤ st.ptr)
    (hord : ∀ c ∈ extra, ordinary c) : feed st extra = st := by
  induction extra with
  | nil => rfl
  | cons c cs ih =>
    have hc : ordinary c := hord c (by simp)
    simp only [feed, readstr_ordinary_full c st hc hp]
    exact ih (fun x hx => hord x (by simp [hx]))

/-- Counterexample to C3 as stated: after the keystrokes NUL, `a` the cursor
is 2 and the two buffered characters are NUL, `a`; the line CR hands over is
the empty C string, not those two characters. -/
theorem readstr_terminator_counterexample :
    (feed LineState.init [NUL, 'a']).ptr = 2
    ∧ (feed LineState.init [NUL, 'a']).s.take 2 = [NUL, 'a']
    ∧ (readstr (some '\r') (feed LineState.init [NUL, 'a'])).ret = some 0
    ∧ cstr (readstr (some '\r') (feed LineState.init [NUL, 'a'])).st.s 0 = []
    ∧ cstr (readstr (some '\r') (feed LineState.init [NUL, 'a'])).st.s 0
        ≠ (feed LineState.init [NUL, 'a']).s.take (feed LineState.init [NUL, 'a']).ptr := by
  decide

/-- C3 (amended): in a state with a 64-slot buffer and cursor `n ≤ 63`, a
poll that finds CR or LF returns the buffer, whose C string is the first `n`
buffered characters up to their first NUL (all `n` of them when none is
NUL), writes exactly a newline to `stdout` and leaves the cursor at 0; a
poll that finds any other character, or none, returns `NULL`. -/
theorem readstr_terminator (st : LineState) (c : Char)
    (hlen : st.s.length = 64) (hptr : st.ptr ≤ 63) (hc : c = '\r' ∨ c = '\n') :
    (readstr (some c) st).ret = some 0
    ∧ cstr (readstr (some c) st).st.s 0 = untilNul (st.s.take st.ptr)
    ∧ (NUL ∉ st.s.take st.ptr →
        cstr (readstr (some c) st).st.s 0 = st.s.take st.ptr)
    ∧ (readstr (some c) st).events = fputs "\n".toList
    ∧ stdoutOf (readstr (some c) st).events = "\n".toList
    ∧ (readstr (some c) st).st.ptr = 0
    ∧ (∀ a : Option Char, a ≠ some '\r' → a ≠ some '\n' →
        (readstr a st).ret = none) := by
  have hlt : st.ptr < st.s.length := by omega
  have hline : cstr (readstr (some c) st).st.s 0 = untilNul (st.s.take st.ptr) := by
    rw [readstr_cr_lf_eq c st hc]
    show cstr (st.s.set st.ptr NUL) 0 = untilNul (st.s.take st.ptr)
    rw [List.set_eq_take_cons_drop NUL hlt]
    simp [cstr, untilNul_append_nul_left]
  refine ⟨?_, hline, ?_, ?_, ?_, ?_, ?_⟩
  · rw [readstr_cr_lf_eq c st hc]
  · intro h
    rw [hline, untilNul_of_not_mem _ h]
  · rw [readstr_cr_lf_eq c st hc]
  · rw [readstr_cr_lf_eq c st hc]; rfl
  · rw [readstr_cr_lf_eq c st hc]
  · intro a h1 h2
    exact readstr_ret_none a st h1 h2

/-- Witness for C3: the initial state after the keystrokes `help`, polled
with CR. -/
theorem readstr_terminator_witness :
    cstr (readstr (some '\r') (feed LineState.init "help".toList)).st.s 0
      = "help".toList
    ∧ (readstr (some '\r') (feed LineState.init "help".toList)).st.ptr = 0 := by
  have h := readstr_terminator (feed LineState.init "help".toList) '\r'
    (by decide) (by decide) (Or.inl rfl)
  exact ⟨h.2.2.1 (by decide) |>.trans (by decide), h.2.2.2.2.2.1⟩

set_option maxRecDepth 100000 in
/-- Counterexample to C4 as stated: NUL is neither CR, LF, delete nor bell,
yet after NUL and 62 further characters `a` the line a CR hands over has
length 0, not 63. -/
theorem readstr_full_counterexample :
    (∀ c ∈ NUL :: List.replicate 62 'a', ordinary c)
    ∧ (NUL :: List.replicate 62 'a').length = 63
    ∧ (readstr (some '\r') (feed LineState.init (NUL :: List.replicate 62 'a'))).ret
        = some 0
    ∧ (cstr (readstr (some '\r')
        (feed LineState.init (NUL :: List.replicate 62 'a'))).st.s 0).length = 0 := by
  decide

/-- C4 (amended): from a state with cursor 0, after 63 ordinary characters
none of which is NUL, every further ordinary character is dropped (no
event, no state change, `NULL` returned), and a following CR returns the
buffer holding exactly the 63 characters typed. -/
theorem readstr_full (st : LineState) (cs extra : List Char)
    (hlen : st.s.length = 64) (hptr : st.ptr = 0) (hcs : cs.length = 63)
    (hord : ∀ c ∈ cs, ordinary c) (hnul : NUL ∉ cs)
    (hextra : ∀ c ∈ extra, ordinary c) :
    (∀ c, ordinary c →
        readstr (some c) (feed st cs) = { st := feed st cs, events := [], ret := none })
    ∧ feed (feed st cs) extra = feed st cs
    ∧ (readstr (some '\r') (feed (feed st cs) extra)).ret = some 0
    ∧ cstr (readstr (some '\r') (feed (feed st cs) extra)).st.s 0 = cs
    ∧ (cstr (readstr (some '\r') (feed (feed st cs) extra)).st.s 0).length = 63 := by
  obtain ⟨mid, x, hmid, hs⟩ := buffer_split st.s hlen
  have hst : st = { s := [] ++ (mid ++ [x]), ptr := ([] : List Char).length } := by
    cases st with
    | mk s p =>
      simp only at hs hptr
      simp [hs, hptr]
  have hfed : feed st cs = { s := cs ++ [x], ptr := 63 } := by
    rw [hst, feed_ordinary cs [] mid [x] (by omega) (by simp [hcs]) hord]
    simp [hcs]
  have hfull : feed (feed st cs) extra = feed st cs :=
    feed_ordinary_full extra _ (by rw [hfed]) hextra
  have hline : cstr (readstr (some '\r') (feed (feed st cs) extra)).st.s 0 = cs := by
    rw [hfull, hfed, readstr_cr_lf_eq '\r' _ (Or.inl rfl)]
    show cstr ((cs ++ [x]).set 63 NUL) 0 = cs
    have := set_append_mid [] cs [] x NUL
    simp only [List.nil_append, List.length_nil, Nat.zero_add, hcs] at this
    rw [this]
    simp [cstr, untilNul_append_nul cs [] hnul]
  refine ⟨?_, hfull, ?_, hline, ?_⟩
  · intro c hc
    exact readstr_ordinary_full c _ hc (by rw [hfed])
  · rw [readstr_cr_lf_eq '\r' _ (Or.inl rfl)]
  · rw [hline, hcs]

set_option maxRecDepth 100000 in
/-- Witness for C4: 63 characters `a`, then `b` and `c`, then CR. -/
theorem readstr_full_witness :
    feed (feed LineState.init (List.replicate 63 'a')) ['b', 'c']
      = feed LineState.init (List.replicate 63 'a')
    ∧ cstr (readstr (some '\r')
        (feed (feed LineState.init (List.replicate 63 'a')) ['b', 'c'])).st.s 0
      = List.replicate 63 'a' := by
  have h := readstr_full LineState.init (List.replicate 63 'a') ['b', 'c']
    (by decide) (by decide) (by decide) (by decide) (by decide) (by decide)
  exact ⟨h.2.1, h.2.2.2.1⟩

/-! ## The cursor -/

theorem echo_ne_erase (c : Char) :
    fputs (untilNul [c, NUL]) ≠ fputs "\x08 \x08".toList := by
  intro h
  have hl := congrArg List.length h
  by_cases hc : c = NUL
  · simp [fputs, untilNul, hc] at hl
  · simp [fputs, untilNul, hc] at hl

theorem newline_ne_erase : fputs "\n".toList ≠ fputs "\x08 \x08".toList := by
  decide

theorem readstr_bell (st : LineState) :
    readstr (some '\x07') st = { st := st, events := [], ret := none } := rfl

theorem nil_ne_erase : ([] : List Event) ≠ fputs "\x08 \x08".toList := by
  decide

/-- Cursor bookkeeping over a run of keystrokes without CR and LF that does
not fill the buffer. -/
theorem feed_cursor (cs : List Char) :
    ∀ st : LineState, st.ptr + cs.length ≤ 63 → '\r' ∉ cs → '\n' ∉ cs →
      (feed st cs).ptr + eraseCount (pollAll st cs) = st.ptr + acceptedCount cs := by
  induction cs with
  | nil => intro st _ _ _; simp [feed, pollAll, eraseCount, acceptedCount]
  | cons c cs ih =>
    intro st hl hcr hlf
    have hr : c ≠ '\r' := fun e => hcr (by simp [e])
    have hn : c ≠ '\n' := fun e => hlf (by simp [e])
    have hcr' : '\r' ∉ cs := fun e => hcr (by simp [e])
    have hlf' : '\n' ∉ cs := fun e => hlf (by simp [e])
    have hlen : st.ptr + cs.length + 1 ≤ 63 := by simpa [Nat.add_assoc] using hl
    by_cases hdel : c = '\x7f' ∨ c = '\x08'
    · have hacc : acceptedCount (c :: cs) = acceptedCount cs := by
        rcases hdel with e | e <;> subst e <;> simp [acceptedCount, List.countP_cons]
      by_cases hp : st.ptr > 0
      · have hstep : readstr (some c) st =
            { st := { s := st.s, ptr := st.ptr - 1 },
              events := fputs "\x08 \x08".toList, ret := none } := by
          simp only [readstr, hdel, hp, if_true]
        have h := ih { s := st.s, ptr := st.ptr - 1 } (by simp only; omega) hcr' hlf'
        simp only [feed, pollAll, hstep, eraseCount, List.countP_cons, hacc] at h ⊢
        simp only [decide_True, if_true]
        omega
      · have hstep : readstr (some c) st = { st := st, events := [], ret := none } := by
          simp only [readstr, hdel, hp, if_true, if_false]
        have h := ih st (by omega) hcr' hlf'
        simp only [feed, pollAll, hstep, eraseCount, List.countP_cons, hacc] at h ⊢
        simp only [nil_ne_erase, decide_False]
        simpa using h
    · have h7f : c ≠ '\x7f' := fun e => hdel (Or.inl e)
      have h08 : c ≠ '\x08' := fun e => hdel (Or.inr e)
      by_cases hbell : c = '\x07'
      · have hacc : acceptedCount (c :: cs) = acceptedCount cs := by
          subst hbell; simp [acceptedCount, List.countP_cons]
        have hstep : readstr (some c) st = { st := st, events := [], ret := none } := by
          rw [hbell]; exact readstr_bell st
        have h := ih st (by omega) hcr' hlf'
        simp only [feed, pollAll, hstep, eraseCount, List.countP_cons, hacc] at h ⊢
        simp only [nil_ne_erase, decide_False]
        simpa using h
      · have hacc : acceptedCount (c :: cs) = acceptedCount cs + 1 := by
          simp [acceptedCount, List.countP_cons, h7f, h08, hbell]
        have hstep := readstr_ordinary c st ⟨h7f, h08, hbell, hr, hn⟩ (by omega)
        have h := ih { s := st.s.set st.ptr c, ptr := st.ptr + 1 }
          (by simp only; omega) hcr' hlf'
        simp only [feed, pollAll, hstep, eraseCount, List.countP_cons, hacc] at h ⊢
        simp only [echo_ne_erase, decide_False]
        simp only [Bool.false_eq_true, if_false, Nat.add_zero] at h ⊢
        omega

theorem eraseCount_no_delete (cs : List Char) :
    ∀ st : LineState, '\x7f' ∉ cs → '\x08' ∉ cs → eraseCount (pollAll st cs) = 0 := by
  induction cs with
  | nil => intro st _ _; simp [pollAll, eraseCount]
  | cons c cs ih =>
    intro st h1 h2
    have h7f : c ≠ '\x7f' := fun e => h1 (by simp [e])
    have h08 : c ≠ '\x08' := fun e => h2 (by simp [e])
    have h1' : '\x7f' ∉ cs := fun e => h1 (by simp [e])
    have h2' : '\x08' ∉ cs := fun e => h2 (by simp [e])
    have hev : (readstr (some c) st).events ≠ fputs "\x08 \x08".toList := by
      simp only [readstr, h7f, h08, or_self, if_false]
      repeat' split
      · exact nil_ne_erase
      · exact newline_ne_erase
      · exact nil_ne_erase
      · exact echo_ne_erase c
    have h := ih (readstr (some c) st).st h1' h2'
    have hd : decide ((readstr (some c) st).events = fputs "\x08 \x08".toList) = false :=
      decide_eq_false hev
    simp only [eraseCount] at h
    simp only [pollAll, eraseCount, List.countP_cons, hd, Bool.false_eq_true, if_false,
      Nat.add_zero]
    exact h

theorem pollAll_ret_none (cs : List Char) :
    ∀ st : LineState, '\r' ∉ cs → '\n' ∉ cs → ∀ r ∈ pollAll st cs, r.ret = none := by
  induction cs with
  | nil => intro st _ _ r hr; simp [pollAll] at hr
  | cons c cs ih =>
    intro st hcr hlf r hr
    have h1 : c ≠ '\r' := fun e => hcr (by simp [e])
    have h2 : c ≠ '\n' := fun e => hlf (by simp [e])
    have hcr' : '\r' ∉ cs := fun e => hcr (by simp [e])
    have hlf' : '\n' ∉ cs := fun e => hlf (by simp [e])
    simp only [pollAll, List.mem_cons] at hr
    rcases hr with e | e
    · rw [e]
      exact readstr_ret_none (some c) st (by simpa using h1) (by simpa using h2)
    · exact ih _ hcr' hlf' r e

/-- Counterexample to C5 as stated: the keystrokes `a`, delete hold no CR or
LF and are fewer than 63; one of them is neither delete nor bell, yet the
final cursor is 0. -/
theorem readstr_cursor_counterexample :
    '\r' ∉ ['a', '\x7f'] ∧ '\n' ∉ ['a', '\x7f'] ∧ ['a', '\x7f'].length < 63
    ∧ acceptedCount ['a', '\x7f'] = 1
    ∧ (feed LineState.init ['a', '\x7f']).ptr = 0
    ∧ (feed LineState.init ['a', '\x7f']).ptr ≠ acceptedCount ['a', '\x7f'] := by
  decide

/-- C5 (amended): for keystrokes without CR and LF, fewer than 63 of them,
polled one by one from a state with cursor 0, every poll returns `NULL`; the
final cursor is the number of keystrokes that are neither delete nor bell
minus the number of polls that wrote the erase sequence (the deletes polled
at a positive cursor); so it is at most that number, and equal to it when no
keystroke is a delete. -/
theorem readstr_cursor (st : LineState) (cs : List Char)
    (hptr : st.ptr = 0) (hcs : cs.length < 63) (hcr : '\r' ∉ cs) (hlf : '\n' ∉ cs) :
    (∀ r ∈ pollAll st cs, r.ret = none)
    ∧ (feed st cs).ptr + eraseCount (pollAll st cs) = acceptedCount cs
    ∧ (feed st cs).ptr ≤ acceptedCount cs
    ∧ ('\x7f' ∉ cs → '\x08' ∉ cs → (feed st cs).ptr = acceptedCount cs) := by
  have h := feed_cursor cs st (by omega) hcr hlf
  rw [hptr, Nat.zero_add] at h
  refine ⟨pollAll_ret_none cs st hcr hlf, h, by omega, ?_⟩
  intro h1 h2
  rw [eraseCount_no_delete cs st h1 h2] at h
  omega

/-- Witness for C5: the keystrokes `a`, `b`, delete, bell, `c`. -/
theorem readstr_cursor_witness :
    (feed LineState.init ['a', 'b', '\x7f', '\x07', 'c']).ptr
        + eraseCount (pollAll LineState.init ['a', 'b', '\x7f', '\x07', 'c'])
      = acceptedCount ['a', 'b', '\x7f', '\x07', 'c']
    ∧ (feed LineState.init ['a', 'b', '\x7f', '\x07', 'c']).ptr = 2 := by
  have h := readstr_cursor LineState.init ['a', 'b', '\x7f', '\x07', 'c']
    rfl (by decide) (by decide) (by decide)
  exact ⟨h.2.1, by decide⟩

/-! ## Reachable states -/

theorem get_token_length (mem : List Char) (str : Nat) :
    (get_token mem str).mem.length = mem.length := by
  unfold get_token
  split <;> simp

theorem console_service_ptr_length (cfg : Config) (u : Locals) (a : Option Char)
    (st : LineState) :
    (console_service cfg u a st).st.ptr = (readstr a st).st.ptr
    ∧ (console_service cfg u a st).st.s.length = (readstr a st).st.s.length := by
  cases h : (readstr a st).ret with
  | none => simp [console_service, h]
  | some p => simp [console_service, h, get_token_length]

theorem reachable_feed (cs : List Char) :
    ∀ st : LineState, Reachable st → Reachable (feed st cs) := by
  induction cs with
  | nil => intro st h; exact h
  | cons c cs ih => intro st h; exact ih _ (Reachable.poll (some c) st h)

set_option maxRecDepth 100000 in
/-- Counterexample to C6 as stated: after 63 keystrokes `a` from the initial
state the cursor is 63, which is not below 63. -/
theorem reachable_cursor_counterexample :
    Reachable (feed LineState.init (List.replicate 63 'a'))
    ∧ (feed LineState.init (List.replicate 63 'a')).ptr = 63
    ∧ ¬ (feed LineState.init (List.replicate 63 'a')).ptr < 63 :=
  ⟨reachable_feed _ _ Reachable.init, by decide, by decide⟩

/-- C6 (amended): in every reachable state the cursor is at most 63, that
is `0 ≤ cursor ≤ capacity - 1`, and the buffer has its 64 slots. -/
theorem reachable_cursor_le (st : LineState) (h : Reachable st) :
    st.ptr ≤ 63 ∧ st.s.length = 64 := by
  induction h with
  | init => exact ⟨by decide, by decide⟩
  | poll a st _ ih =>
    exact ⟨readstr_ptr_le a st ih.1, by rw [readstr_length, ih.2]⟩
  | service cfg u a st _ ih =>
    obtain ⟨h1, h2⟩ := console_service_ptr_length cfg u a st
    exact ⟨by rw [h1]; exact readstr_ptr_le a st ih.1,
           by rw [h2, readstr_length, ih.2]⟩

/-- Witness for C6: the state after the keystrokes `help`. -/
theorem reachable_cursor_le_witness :
    (feed LineState.init "help".toList).ptr ≤ 63
    ∧ (feed LineState.init "help".toList).s.length = 64 :=
  reachable_cursor_le (feed LineState.init "help".toList)
    (reachable_feed _ _ Reachable.init)

/-! ## The service loop on one line -/

theorem console_service_events (cfg : Config) (u : Locals) (a : Option Char)
    (st : LineState) :
    (console_service cfg u a st).events =
      (readstr a st).events ++
        (match tokenOf a st with
         | none => []
         | some tok => dispatch cfg u tok) := by
  cases h : (readstr a st).ret with
  | none => simp [console_service, tokenOf, h]
  | some p => simp [console_service, tokenOf, h]

theorem console_service_incomplete (cfg : Config) (u : Locals) (a : Option Char)
    (st : LineState) (h : (readstr a st).ret = none) :
    console_service cfg u a st = { st := (readstr a st).st, events := (readstr a st).events } := by
  simp [console_service, h]

/-- The service loop over the keystrokes of one line and its terminator. -/
theorem serve_line (cfg : Config) (u : Locals) (cs : List Char) (c : Char) :
    ∀ st : LineState, '\r' ∉ cs → '\n' ∉ cs →
      serve cfg u st (cs ++ [c]) =
        (pollAll st cs).flatMap (fun r => r.events)
          ++ (console_service cfg u (some c) (feed st cs)).events := by
  induction cs with
  | nil => intro st _ _; simp [serve, pollAll, feed]
  | cons x xs ih =>
    intro st hcr hlf
    have h1 : x ≠ '\r' := fun e => hcr (by simp [e])
    have h2 : x ≠ '\n' := fun e => hlf (by simp [e])
    have hcr' : '\r' ∉ xs := fun e => hcr (by simp [e])
    have hlf' : '\n' ∉ xs := fun e => hlf (by simp [e])
    have hret : (readstr (some x) st).ret = none :=
      readstr_ret_none (some x) st (by simpa using h1) (by simpa using h2)
    have hstep := console_service_incomplete cfg u (some x) st hret
    rw [List.cons_append]
    simp only [serve, pollAll, feed, hstep, List.flatMap_cons, List.append_assoc]
    rw [ih _ hcr' hlf']

/-- The service loop over one line, given the token the line yields. -/
theorem serve_line_token (cfg : Config) (u : Locals) (cs : List Char) (c : Char)
    (st : LineState) (tok : List Char) (hcr : '\r' ∉ cs) (hlf : '\n' ∉ cs)
    (htok : tokenOf (some c) (feed st cs) = some tok) :
    serve cfg u st (cs ++ [c]) =
      (pollAll st cs).flatMap (fun r => r.events)
        ++ ((readstr (some c) (feed st cs)).events ++ dispatch cfg u tok) := by
  rw [serve_line cfg u cs c st hcr hlf, console_service_events, htok]

/-! ## The command chain -/

theorem strcmp_eq_zero_iff (a b : List Char) : strcmp a b = 0 ↔ a = b := by
  induction a generalizing b with
  | nil => cases b <;> simp [strcmp]
  | cons x xs ih =>
    cases b with
    | nil => simp [strcmp]
    | cons y ys =>
      by_cases h : x = y
      · simp [strcmp, h, ih]
      · by_cases h2 : x < y <;> simp [strcmp, h, h2]

/-- C7 (evaluation at the failing inputs): the keystrokes `TRIG:EDGE:LEV  7`
and newline, typed at program start, are echoed and answered with `Error!`;
nothing but characters on `stdout` happens, so no register is written.  The
same holds with ` extra` appended to the line. -/
theorem serve_trig_lev_spaces (cfg : Config) (u : Locals) :
    serve cfg u LineState.init "TRIG:EDGE:LEV  7\n".toList
      = fputs "TRIG:EDGE:LEV  7\n".toList ++ fputs "Error!\n".toList
    ∧ effectsOf (serve cfg u LineState.init "TRIG:EDGE:LEV  7\n".toList) = []
    ∧ tokenOf (some '\n') (feed LineState.init "TRIG:EDGE:LEV  7".toList)
      = some "TRIG:EDGE:LEV".toList
    ∧ serve cfg u LineState.init "TRIG:EDGE:LEV  7 extra\n".toList
      = fputs "TRIG:EDGE:LEV  7 extra\n".toList ++ fputs "Error!\n".toList
    ∧ effectsOf (serve cfg u LineState.init "TRIG:EDGE:LEV  7 extra\n".toList) = [] := by
  have hd : dispatch cfg u "TRIG:EDGE:LEV".toList = fputs "Error!\n".toList := by
    simp +decide [dispatch]
  have ht1 : tokenOf (some '\n') (feed LineState.init "TRIG:EDGE:LEV  7".toList)
      = some "TRIG:EDGE:LEV".toList := by decide
  have ht2 : tokenOf (some '\n') (feed LineState.init "TRIG:EDGE:LEV  7 extra".toList)
      = some "TRIG:EDGE:LEV".toList := by decide
  have h1 : serve cfg u LineState.init "TRIG:EDGE:LEV  7\n".toList
      = fputs "TRIG:EDGE:LEV  7\n".toList ++ fputs "Error!\n".toList := by
    have e : "TRIG:EDGE:LEV  7\n".toList = "TRIG:EDGE:LEV  7".toList ++ ['\n'] := by decide
    rw [e, serve_line_token cfg u _ '\n' _ _ (by decide) (by decide) ht1, hd]
    have hev : (pollAll LineState.init "TRIG:EDGE:LEV  7".toList).flatMap (fun r => r.events)
        ++ (readstr (some '\n') (feed LineState.init "TRIG:EDGE:LEV  7".toList)).events
        = fputs ("TRIG:EDGE:LEV  7".toList ++ ['\n']) := by decide
    rw [← List.append_assoc, hev]
  have h2 : serve cfg u LineState.init "TRIG:EDGE:LEV  7 extra\n".toList
      = fputs "TRIG:EDGE:LEV  7 extra\n".toList ++ fputs "Error!\n".toList := by
    have e : "TRIG:EDGE:LEV  7 extra\n".toList
        = "TRIG:EDGE:LEV  7 extra".toList ++ ['\n'] := by decide
    rw [e, serve_line_token cfg u _ '\n' _ _ (by decide) (by decide) ht2, hd]
    have hev : (pollAll LineState.init "TRIG:EDGE:LEV  7 extra".toList).flatMap
          (fun r => r.events)
        ++ (readstr (some '\n') (feed LineState.init "TRIG:EDGE:LEV  7 extra".toList)).events
        = fputs ("TRIG:EDGE:LEV  7 extra".toList ++ ['\n']) := by decide
    rw [← List.append_assoc, hev]
  refine ⟨h1, ?_, ht1, h2, ?_⟩
  · rw [h1]; decide
  · rw [h2]; decide

/-- C8 (evaluation at a failing input): the keystrokes `WAV:SOUR CHAN1` and
newline, typed at program start, are echoed and answered with `Error!`: the
command chain sees the token `WAV:SOUR`, which its sixth rule rejects
(`sscanf` returns `EOF`). -/
theorem serve_wav_sour (cfg : Config) (u : Locals) :
    serve cfg u LineState.init "WAV:SOUR CHAN1\n".toList
      = fputs "WAV:SOUR CHAN1\n".toList ++ fputs "Error!\n".toList
    ∧ tokenOf (some '\n') (feed LineState.init "WAV:SOUR CHAN1".toList)
      = some "WAV:SOUR".toList
    ∧ (sscanf "WAV:SOUR".toList "WAV:SOUR %s%n".toList).ret = -1
    ∧ dispatch cfg u "WAV:SOUR".toList = fputs "Error!\n".toList := by
  have hd : dispatch cfg u "WAV:SOUR".toList = fputs "Error!\n".toList := by
    simp +decide [dispatch]
  have ht : tokenOf (some '\n') (feed LineState.init "WAV:SOUR CHAN1".toList)
      = some "WAV:SOUR".toList := by decide
  refine ⟨?_, ht, by decide, hd⟩
  have e : "WAV:SOUR CHAN1\n".toList = "WAV:SOUR CHAN1".toList ++ ['\n'] := by decide
  rw [e, serve_line_token cfg u _ '\n' _ _ (by decide) (by decide) ht, hd]
  have hev : (pollAll LineState.init "WAV:SOUR CHAN1".toList).flatMap (fun r => r.events)
      ++ (readstr (some '\n') (feed LineState.init "WAV:SOUR CHAN1".toList)).events
      = fputs ("WAV:SOUR CHAN1".toList ++ ['\n']) := by decide
  rw [← List.append_assoc, hev]

/-- C10 (evaluation at failing inputs): on the token `:ch3` the fifth rule
is accepted, and `1` is written, exactly when the variable `pos` held 4
before the scan; on `:ch3:DISP` exactly when it held 9.  The scan converts
the integer, returns 1 and stops before its `%n`, so `pos` keeps its old
value in the comparison with the token length. -/
theorem dispatch_ch_stale_pos (cfg : Config) (u : Locals) :
    (sscanf ":ch3".toList ":ch%i:DISPQ%n".toList).ret = 1
    ∧ (sscanf ":ch3".toList ":ch%i:DISPQ%n".toList).ns = []
    ∧ dispatch cfg { pos := 4, lev := u.lev } ":ch3".toList = fputs "1\n".toList
    ∧ dispatch cfg { pos := 9, lev := u.lev } ":ch3:DISP".toList = fputs "1\n".toList
    ∧ dispatch cfg u ":ch3".toList
        = if u.pos = 4 then fputs "1\n".toList else fputs "Error!\n".toList := by
  have hr : sscanf ":ch3".toList ":ch%i:DISPQ%n".toList
      = { ret := 1, ints := [3], strs := [], ns := [] } := by decide
  refine ⟨by decide, by decide, ?_, ?_, ?_⟩
  · simp +decide [dispatch]
  · simp +decide [dispatch]
  · simp only [dispatch, hr, ScanResult.store_n]
    by_cases h : u.pos = 4
    · simp +decide [h]
    · simp +decide [h]

/-! ## Scanning decimal numerals -/

theorem digitOf_digitChar (d : Nat) (h : d < 10) : digitOf (digitChar d) = some d := by
  interval_cases d <;> decide

theorem digitChar_facts (d : Nat) (h : d < 10) :
    digitChar d ≠ '-' ∧ digitChar d ≠ '+' ∧ isspace (digitChar d) = false
    ∧ (digitChar d = '0' → d = 0) := by
  interval_cases d <;> decide

theorem scanDigits_map (b : Nat) (hb : 10 ≤ b) (ds : List Nat) (r : List Char)
    (hds : ∀ d ∈ ds, d < 10) (hr : scanDigits b r = []) :
    scanDigits b (ds.map digitChar ++ r) = ds := by
  induction ds with
  | nil => simpa using hr
  | cons d ds ih =>
    have hd : d < 10 := hds d (by simp)
    have hlt : d < b := by omega
    have := ih (fun x hx => hds x (by simp [hx]))
    simp [scanDigits, digitOf_digitChar d hd, hlt, this]

theorem digitsValue_reverse_digits (n : Nat) :
    digitsValue 10 (Nat.digits 10 n).reverse = n := by
  have h : ∀ l : List Nat, digitsValue 10 l.reverse = Nat.ofDigits 10 l := by
    intro l
    induction l with
    | nil => simp [digitsValue]
    | cons x xs ih =>
      simp only [digitsValue] at ih
      simp [digitsValue, List.foldl_append, ih, Nat.ofDigits_cons]
      omega
  rw [h, Nat.ofDigits_digits]

/-- The shape of a decimal numeral: the characters of a non-empty digit
sequence that denotes the number and begins with `0` only for zero. -/
theorem natDecimal_shape (n : Nat) :
    ∃ d ds, natDecimal n = (d :: ds).map digitChar ∧ (∀ x ∈ d :: ds, x < 10)
      ∧ digitsValue 10 (d :: ds) = n ∧ (d = 0 → d :: ds = [0]) := by
  by_cases hn : n = 0
  · subst hn
    exact ⟨0, [], by decide, by simp, by simp [digitsValue], fun _ => rfl⟩
  · have hne : (Nat.digits 10 n).reverse ≠ [] := by
      simpa using (Nat.digits_ne_nil_iff_ne_zero.mpr hn)
    obtain ⟨d, ds, hds⟩ := List.exists_cons_of_ne_nil hne
    have hlast : (Nat.digits 10 n).getLast (Nat.digits_ne_nil_iff_ne_zero.mpr hn) ≠ 0 :=
      Nat.getLast_digit_ne_zero 10 hn
    have hhead : d ≠ 0 := by
      have h1 : (Nat.digits 10 n).getLast? = some d := by
        rw [← List.head?_reverse, hds]; rfl
      rw [List.getLast?_eq_getLast _ (Nat.digits_ne_nil_iff_ne_zero.mpr hn)] at h1
      intro e
      exact hlast ((Option.some.inj h1).trans e)
    refine ⟨d, ds, by simp [natDecimal, hn, hds], ?_, ?_, fun e => absurd e hhead⟩
    · intro x hx
      have hx' : x ∈ Nat.digits 10 n := by
        rw [← List.mem_reverse, hds]; exact hx
      exact Nat.digits_lt_base (by norm_num) hx'
    · rw [← hds]; exact digitsValue_reverse_digits n

theorem scanDigits_endsNumeral (b : Nat) (r : List Char) (h : endsNumeral r) :
    scanDigits b r = [] := by
  cases r with
  | nil => rfl
  | cons x r' => simp [scanDigits, (h x r' rfl).1]

theorem scanMagnitude_natDecimal (isI : Bool) (n : Nat) (r : List Char)
    (hr : endsNumeral r) :
    scanMagnitude isI (natDecimal n ++ r) = some (n, (natDecimal n).length) := by
  obtain ⟨d, ds, hshape, hlt, hval, hzero⟩ := natDecimal_shape n
  have hdec : scanDigits 10 (natDecimal n ++ r) = d :: ds := by
    rw [hshape]
    exact scanDigits_map 10 (by norm_num) (d :: ds) r hlt (scanDigits_endsNumeral 10 r hr)
  have hlen : (natDecimal n).length = (d :: ds).length := by rw [hshape]; simp
  have hdecimal : (let ds' := scanDigits 10 (natDecimal n ++ r)
      if ds' = [] then none else some (digitsValue 10 ds', ds'.length))
      = some (n, (natDecimal n).length) := by
    simp only [hdec, hval, hlen]
    simp
  cases isI with
  | false => simpa [scanMagnitude] using hdecimal
  | true =>
    by_cases hd0 : d = 0
    · have hl := hzero hd0
      have hn : n = 0 := by rw [← hval, hl]; simp [digitsValue]
      subst hn
      cases r with
      | nil => simp +decide [scanMagnitude, natDecimal]
      | cons x r' =>
        obtain ⟨h1, h2, h3⟩ := hr x r' rfl
        have h8 : scanDigits 8 ('0' :: x :: r') = [0] := by
          simp +decide [scanDigits, h1]
        simp [scanMagnitude, natDecimal, h2, h3, h8, digitsValue]
    · have hc0 : digitChar d ≠ '0' := fun e =>
        hd0 ((digitChar_facts d (hlt d (by simp))).2.2.2 e)
      have hcons : natDecimal n ++ r = digitChar d :: (ds.map digitChar ++ r) := by
        rw [hshape]; simp
      rw [hcons] at hdecimal ⊢
      simpa [scanMagnitude, hc0] using hdecimal

theorem natAbs_fmt (N : Int) :
    (N < 0 → fmt_d N = '-' :: natDecimal N.natAbs ∧ -(N.natAbs : Int) = N)
    ∧ (¬ N < 0 → fmt_d N = natDecimal N.natAbs ∧ (N.natAbs : Int) = N) := by
  constructor
  · intro h
    exact ⟨by simp [fmt_d, h], by omega⟩
  · intro h
    exact ⟨by simp [fmt_d, h], by omega⟩

/-- The head of a decimal numeral is a digit: no sign and no white space. -/
theorem natDecimal_head (n : Nat) :
    ∃ x t, natDecimal n = x :: t ∧ x ≠ '-' ∧ x ≠ '+' ∧ isspace x = false := by
  obtain ⟨d, ds, hshape, hlt, _, _⟩ := natDecimal_shape n
  obtain ⟨h1, h2, h3, _⟩ := digitChar_facts d (hlt d (by simp))
  exact ⟨digitChar d, ds.map digitChar, by rw [hshape]; simp, h1, h2, h3⟩

/-- Scanning what `printf("%d")` writes gives the number back, and takes the
whole numeral. -/
theorem scanInteger_fmt_d (isI : Bool) (N : Int) (r : List Char) (hr : endsNumeral r) :
    scanInteger isI (fmt_d N ++ r) = some (N, (fmt_d N).length) := by
  obtain ⟨hneg, hpos⟩ := natAbs_fmt N
  by_cases h : N < 0
  · obtain ⟨hf, hv⟩ := hneg h
    have hm := scanMagnitude_natDecimal isI N.natAbs r hr
    rw [hf, List.cons_append]
    simp only [scanInteger, if_true, hm, Option.map_some', hv, List.length_cons]
  · obtain ⟨hf, hv⟩ := hpos h
    obtain ⟨x, t, hx, h1, h2, _⟩ := natDecimal_head N.natAbs
    have hm := scanMagnitude_natDecimal isI N.natAbs r hr
    rw [hf]
    rw [hx] at hm ⊢
    rw [List.cons_append] at hm ⊢
    simp only [scanInteger, h1, h2, if_false, hm, Option.map_some', hv]

theorem fmt_d_head (N : Int) : ∃ x t, fmt_d N = x :: t ∧ isspace x = false := by
  obtain ⟨hneg, hpos⟩ := natAbs_fmt N
  by_cases h : N < 0
  · exact ⟨'-', natDecimal N.natAbs, (hneg h).1, by decide⟩
  · obtain ⟨x, t, hx, _, _, h3⟩ := natDecimal_head N.natAbs
    exact ⟨x, t, by rw [(hpos h).1, hx], h3⟩

/-! ## Steps of the scan -/

theorem scanLoop_lits (l : List Char) (ds : List Directive) :
    ∀ (r : List Char) (n : Nat) (is : List Int) (ss : List (List Char)) (ns : List Nat),
      scanLoop (l.map Directive.lit ++ ds)
          { inp := l ++ r, nread := n, ints := is, strs := ss, ns := ns }
        = scanLoop ds { inp := r, nread := n + l.length, ints := is, strs := ss, ns := ns } := by
  induction l with
  | nil => intro r n is ss ns; rfl
  | cons c cs ih =>
    intro r n is ss ns
    have hn : n + 1 + cs.length = n + (cs.length + 1) := by omega
    rw [List.map_cons, List.cons_append, List.cons_append]
    simp only [scanLoop, if_true, ScanState.advance, List.drop_succ_cons, List.drop_zero]
    rw [ih, hn, List.length_cons]

theorem scanLoop_conv_i_fmt (N : Int) (ds : List Directive) (r : List Char)
    (hr : endsNumeral r) (n : Nat) (is : List Int) (ss : List (List Char)) (ns : List Nat) :
    scanLoop (Directive.conv_i :: ds)
        { inp := fmt_d N ++ r, nread := n, ints := is, strs := ss, ns := ns }
      = scanLoop ds { inp := r, nread := n + (fmt_d N).length,
                      ints := is ++ [toInt32 N], strs := ss, ns := ns } := by
  obtain ⟨x, t, hx, hsp⟩ := fmt_d_head N
  have hskip : ({ inp := fmt_d N ++ r, nread := n, ints := is, strs := ss, ns := ns }
      : ScanState).skipWs
      = { inp := fmt_d N ++ r, nread := n, ints := is, strs := ss, ns := ns } := by
    simp [ScanState.skipWs, hx, List.dropWhile, List.takeWhile, hsp]
  have hne : fmt_d N ++ r ≠ [] := by rw [hx]; simp
  simp only [scanLoop, hskip, hne, if_false, scanInteger_fmt_d true N r hr,
    ScanState.advance, List.drop_left]

theorem scanLoop_conv_d_fmt (N : Int) (ds : List Directive) (r : List Char)
    (hr : endsNumeral r) (n : Nat) (is : List Int) (ss : List (List Char)) (ns : List Nat) :
    scanLoop (Directive.conv_d :: ds)
        { inp := fmt_d N ++ r, nread := n, ints := is, strs := ss, ns := ns }
      = scanLoop ds { inp := r, nread := n + (fmt_d N).length,
                      ints := is ++ [toInt32 N], strs := ss, ns := ns } := by
  obtain ⟨x, t, hx, hsp⟩ := fmt_d_head N
  have hskip : ({ inp := fmt_d N ++ r, nread := n, ints := is, strs := ss, ns := ns }
      : ScanState).skipWs
      = { inp := fmt_d N ++ r, nread := n, ints := is, strs := ss, ns := ns } := by
    simp [ScanState.skipWs, hx, List.dropWhile, List.takeWhile, hsp]
  have hne : fmt_d N ++ r ≠ [] := by rw [hx]; simp
  simp only [scanLoop, hskip, hne, if_false, scanInteger_fmt_d false N r hr,
    ScanState.advance, List.drop_left]

theorem endsNumeral_colon (t : List Char) : endsNumeral (':' :: t) := by
  intro x r' h
  have hx : x = ':' := by injection h with h1 _; exact h1.symm
  subst hx
  decide

/-- The scan of rule 5 on a token `:ch<N>:DISPQ` followed by any text: it
converts `N`, matches the keyword and stores the length of `:ch<N>:DISPQ`
through `%n`. -/
theorem sscanf_ch_dispq (N : Int) (X : List Char) :
    sscanf (":ch".toList ++ fmt_d N ++ ":DISPQ".toList ++ X) ":ch%i:DISPQ%n".toList
      = { ret := 1, ints := [toInt32 N], strs := [],
          ns := [(":ch".toList ++ fmt_d N ++ ":DISPQ".toList).length] } := by
  have hfmt : parseFormat ":ch%i:DISPQ%n".toList
      = ":ch".toList.map Directive.lit
          ++ (Directive.conv_i :: (":DISPQ".toList.map Directive.lit ++ [Directive.conv_n])) := by
    decide
  have hinp : ":ch".toList ++ fmt_d N ++ ":DISPQ".toList ++ X
      = ":ch".toList ++ (fmt_d N ++ (':' :: ("DISPQ".toList ++ X))) := by
    simp
  have hkw : (':' :: ("DISPQ".toList ++ X)) = ":DISPQ".toList ++ X := by simp
  rw [sscanf, hfmt, hinp, scanLoop_lits,
    scanLoop_conv_i_fmt N _ _ (endsNumeral_colon _), hkw, scanLoop_lits]
  simp [scanLoop, ScanState.stop, ScanState.assigned]
  omega

/-! ## Rule 5 of the command chain -/

theorem sscanf_head_mismatch (x c : Char) (t fmt : List Char) (h : x ≠ c)
    (hc : c ≠ '%') (hs : isspace c = false) :
    (sscanf (x :: t) (c :: fmt)).ret = 0 := by
  have hp : parseFormat (c :: fmt) = Directive.lit c :: parseFormat fmt := by
    rw [parseFormat.eq_def]; simp [hc, hs]
  simp [sscanf, hp, scanLoop, h, ScanState.stop, ScanState.assigned]

/-- A scan whose format begins with a character the input does not begin
with stores nothing. -/
theorem sscanf_head_mismatch_strs (x c : Char) (t fmt : List Char) (h : x ≠ c)
    (hc : c ≠ '%') (hs : isspace c = false) :
    (sscanf (x :: t) (c :: fmt)).strs = [] := by
  have hp : parseFormat (c :: fmt) = Directive.lit c :: parseFormat fmt := by
    rw [parseFormat.eq_def]; simp [hc, hs]
  simp [sscanf, hp, scanLoop, h, ScanState.stop]

/-- On a token that begins with `:c`, only rule 5 can match: the chain
writes `1` if its scan returns 1 with `pos` equal to the token length, and
`Error!` otherwise. -/
theorem dispatch_colon_c (cfg : Config) (u : Locals) (rest : List Char) :
    dispatch cfg u (':' :: 'c' :: rest) =
      if (sscanf (':' :: 'c' :: rest) ":ch%i:DISPQ%n".toList).ret = 1
          ∧ (sscanf (':' :: 'c' :: rest) ":ch%i:DISPQ%n".toList).store_n u.pos
              = (((':' :: 'c' :: rest).length : Nat) : Int)
      then fputs "1\n".toList else fputs "Error!\n".toList := by
  have h6 : (sscanf (':' :: 'c' :: rest) "WAV:SOUR %s%n".toList).ret = 0 :=
    sscanf_head_mismatch ':' 'W' _ _ (by decide) (by decide) (by decide)
  have h11 : (sscanf (':' :: 'c' :: rest) "TRIG:EDGE:LEV  %d".toList).ret = 0 :=
    sscanf_head_mismatch ':' 'T' _ _ (by decide) (by decide) (by decide)
  have hov : chanNameOverrun (sscanf (':' :: 'c' :: rest) "WAV:SOUR %s%n".toList) = false := by
    have hs : (sscanf (':' :: 'c' :: rest) "WAV:SOUR %s%n".toList).strs = [] :=
      sscanf_head_mismatch_strs ':' 'W' _ _ (by decide) (by decide) (by decide)
    rw [chanNameOverrun, hs]
    rfl
  unfold dispatch
  simp only [strcmp_eq_zero_iff, h6, h11, hov]
  simp +decide

/-- C9: for every integer `N`, the command chain answers the token
`:ch<N>:DISPQ` (with `N` written as `printf("%d")` writes it) with `1` and a
newline and nothing else; and when any non-empty text follows, the scan of
rule 5 still returns 1 but stores through `%n` a count that differs from the
token length, rule 5 rejects, and the chain answers `Error!` and a newline
and nothing else. -/
theorem dispatch_ch_dispq (cfg : Config) (u : Locals) (N : Int) :
    dispatch cfg u (":ch".toList ++ fmt_d N ++ ":DISPQ".toList) = fputs "1\n".toList
    ∧ ∀ X : List Char, X ≠ [] →
        (sscanf (":ch".toList ++ fmt_d N ++ ":DISPQ".toList ++ X) ":ch%i:DISPQ%n".toList).ret = 1
        ∧ (sscanf (":ch".toList ++ fmt_d N ++ ":DISPQ".toList ++ X)
              ":ch%i:DISPQ%n".toList).store_n u.pos
            ≠ (((":ch".toList ++ fmt_d N ++ ":DISPQ".toList ++ X).length : Nat) : Int)
        ∧ dispatch cfg u (":ch".toList ++ fmt_d N ++ ":DISPQ".toList ++ X)
            = fputs "Error!\n".toList := by
  have hshape : ∀ X : List Char, ":ch".toList ++ fmt_d N ++ ":DISPQ".toList ++ X
      = ':' :: 'c' :: ('h' :: (fmt_d N ++ ":DISPQ".toList ++ X)) := by
    intro X; simp
  have hpos : ∀ X : List Char,
      (sscanf (":ch".toList ++ fmt_d N ++ ":DISPQ".toList ++ X)
          ":ch%i:DISPQ%n".toList).store_n u.pos
        = (((":ch".toList ++ fmt_d N ++ ":DISPQ".toList).length : Nat) : Int) := by
    intro X
    rw [sscanf_ch_dispq N X]
    rfl
  constructor
  · have h0 := sscanf_ch_dispq N []
    have hp0 := hpos []
    rw [List.append_nil] at h0 hp0
    have hs := hshape []
    rw [List.append_nil] at hs
    have hd := dispatch_colon_c cfg u ('h' :: (fmt_d N ++ ":DISPQ".toList ++ []))
    rw [← hs] at hd
    rw [hd, if_pos ⟨by rw [h0], hp0⟩]
  · intro X hX
    have hlen : 0 < X.length := List.length_pos.mpr hX
    have hne : (sscanf (":ch".toList ++ fmt_d N ++ ":DISPQ".toList ++ X)
          ":ch%i:DISPQ%n".toList).store_n u.pos
        ≠ (((":ch".toList ++ fmt_d N ++ ":DISPQ".toList ++ X).length : Nat) : Int) := by
      rw [hpos X]
      intro e
      have e' := Int.ofNat.inj e
      rw [List.length_append (":ch".toList ++ fmt_d N ++ ":DISPQ".toList) X] at e'
      omega
    refine ⟨by rw [sscanf_ch_dispq N X], hne, ?_⟩
    have hd := dispatch_colon_c cfg u ('h' :: (fmt_d N ++ ":DISPQ".toList ++ X))
    rw [← hshape X] at hd
    rw [hd, if_neg (fun h => hne h.2)]

/-- Witness for C9: the tokens `:ch3:DISPQ` and `:ch3:DISPQX`. -/
theorem dispatch_ch_dispq_witness :
    dispatch ⟨true, false, [], []⟩ ⟨0, 0⟩ ":ch3:DISPQ".toList = fputs "1\n".toList
    ∧ dispatch ⟨true, false, [], []⟩ ⟨0, 0⟩ ":ch3:DISPQX".toList
        = fputs "Error!\n".toList := by
  have h3 : fmt_d 3 = ['3'] := by
    simp [fmt_d, natDecimal]; decide
  have h := dispatch_ch_dispq ⟨true, false, [], []⟩ ⟨0, 0⟩ 3
  rw [h3] at h
  exact ⟨h.1, (h.2 ['X'] (by decide)).2.2⟩

/-! ## The scans of the formatted rules -/

/-- A scan that begins with literal characters returns 1 only on an input
that begins with those characters. -/
theorem scanLoop_lits_ret (l : List Char) (ds : List Directive) :
    ∀ (inp : List Char) (n : Nat) (ns : List Nat),
      (scanLoop (l.map Directive.lit ++ ds)
          { inp := inp, nread := n, ints := [], strs := [], ns := ns }).ret = 1 →
      ∃ r, inp = l ++ r := by
  induction l with
  | nil => intro inp n ns _; exact ⟨inp, rfl⟩
  | cons c cs ih =>
    intro inp n ns h
    rw [List.map_cons, List.cons_append] at h
    cases inp with
    | nil =>
      simp [scanLoop, ScanState.inputFailure, ScanState.assigned] at h
    | cons x t =>
      by_cases hx : x = c
      · subst hx
        simp only [scanLoop, if_true, ScanState.advance, List.drop_succ_cons,
          List.drop_zero] at h
        obtain ⟨r, hr⟩ := ih t (n + 1) ns h
        exact ⟨r, by rw [hr]; rfl⟩
      · simp [scanLoop, hx, ScanState.stop, ScanState.assigned] at h

theorem parseFormat_wav_sour : parseFormat "WAV:SOUR %s%n".toList
    = "WAV:SOUR".toList.map Directive.lit
        ++ [Directive.ws, Directive.conv_s, Directive.conv_n] := by
  decide

theorem sscanf_sour_ret (token : List Char)
    (h : (sscanf token "WAV:SOUR %s%n".toList).ret = 1) :
    ∃ r, token = "WAV:SOUR".toList ++ r := by
  rw [sscanf, parseFormat_wav_sour] at h
  exact scanLoop_lits_ret _ _ _ _ _ h

/-- When the scan of rule 6 returns 1 it has stored through its `%n`, so
the value `pos` had before the scan plays no part. -/
theorem sscanf_sour_store_n (token : List Char) (p q : Int)
    (h : (sscanf token "WAV:SOUR %s%n".toList).ret = 1) :
    (sscanf token "WAV:SOUR %s%n".toList).store_n p
      = (sscanf token "WAV:SOUR %s%n".toList).store_n q := by
  obtain ⟨r, hr⟩ := sscanf_sour_ret token h
  subst hr
  rw [sscanf, parseFormat_wav_sour, scanLoop_lits] at h ⊢
  by_cases he : List.dropWhile isspace (List.dropWhile isspace r) = []
  · simp [scanLoop, ScanState.skipWs, he, ScanState.inputFailure,
      ScanState.assigned] at h
  · simp [scanLoop, ScanState.skipWs, he, ScanState.stop, ScanState.advance,
      ScanResult.store_n]

/-! ## The chain is the first match in the table -/

theorem scanLoop_ns_length (ds : List Directive) :
    ∀ σ : ScanState,
      (scanLoop ds σ).ns.length ≤ σ.ns.length + ds.count Directive.conv_n := by
  induction ds with
  | nil => intro σ; simp [scanLoop, ScanState.stop]
  | cons d ds ih =>
    intro σ
    cases d with
    | ws =>
      have h := ih σ.skipWs
      simp only [scanLoop]
      simp [ScanState.skipWs] at h ⊢
      exact h
    | lit c =>
      simp only [scanLoop]
      split
      · simp [ScanState.inputFailure]
      · split
        · have h := ih (σ.advance 1)
          simp [ScanState.advance] at h ⊢
          exact h
        · simp [ScanState.stop]
    | conv_n =>
      have h := ih { σ with ns := σ.ns ++ [σ.nread] }
      simp only [scanLoop]
      simp at h ⊢
      omega
    | conv_d =>
      simp only [scanLoop]
      split
      · simp [ScanState.inputFailure, ScanState.skipWs]
      · split
        · simp [ScanState.stop, ScanState.skipWs]
        · rename_i v k _
          have h := ih { σ.skipWs.advance k with ints := σ.skipWs.ints ++ [toInt32 v] }
          simp [ScanState.advance, ScanState.skipWs] at h ⊢
          exact h
    | conv_i =>
      simp only [scanLoop]
      split
      · simp [ScanState.inputFailure, ScanState.skipWs]
      · split
        · simp [ScanState.stop, ScanState.skipWs]
        · rename_i v k _
          have h := ih { σ.skipWs.advance k with ints := σ.skipWs.ints ++ [toInt32 v] }
          simp [ScanState.advance, ScanState.skipWs] at h ⊢
          exact h
    | conv_s =>
      simp only [scanLoop]
      split
      · simp [ScanState.inputFailure, ScanState.skipWs]
      · have h := ih { σ.skipWs.advance
            (σ.skipWs.inp.takeWhile (fun c => !isspace c)).length with
            strs := σ.skipWs.strs ++ [σ.skipWs.inp.takeWhile (fun c => !isspace c)] }
        simp [ScanState.advance, ScanState.skipWs] at h ⊢
        exact h

theorem scanLoop_strs_length (ds : List Directive) :
    ∀ σ : ScanState,
      (scanLoop ds σ).strs.length ≤ σ.strs.length + ds.count Directive.conv_s := by
  induction ds with
  | nil => intro σ; simp [scanLoop, ScanState.stop]
  | cons d ds ih =>
    intro σ
    cases d with
    | ws =>
      have h := ih σ.skipWs
      simp only [scanLoop]
      simp [ScanState.skipWs] at h ⊢
      exact h
    | lit c =>
      simp only [scanLoop]
      split
      · simp [ScanState.inputFailure]
      · split
        · have h := ih (σ.advance 1)
          simp [ScanState.advance] at h ⊢
          exact h
        · simp [ScanState.stop]
    | conv_n =>
      have h := ih { σ with ns := σ.ns ++ [σ.nread] }
      simp only [scanLoop]
      simp at h ⊢
      exact h
    | conv_d =>
      simp only [scanLoop]
      split
      · simp [ScanState.inputFailure, ScanState.skipWs]
      · split
        · simp [ScanState.stop, ScanState.skipWs]
        · rename_i v k _
          have h := ih { σ.skipWs.advance k with ints := σ.skipWs.ints ++ [toInt32 v] }
          simp [ScanState.advance, ScanState.skipWs] at h ⊢
          exact h
    | conv_i =>
      simp only [scanLoop]
      split
      · simp [ScanState.inputFailure, ScanState.skipWs]
      · split
        · simp [ScanState.stop, ScanState.skipWs]
        · rename_i v k _
          have h := ih { σ.skipWs.advance k with ints := σ.skipWs.ints ++ [toInt32 v] }
          simp [ScanState.advance, ScanState.skipWs] at h ⊢
          exact h
    | conv_s =>
      simp only [scanLoop]
      split
      · simp [ScanState.inputFailure, ScanState.skipWs]
      · have h := ih { σ.skipWs.advance
            (σ.skipWs.inp.takeWhile (fun c => !isspace c)).length with
            strs := σ.skipWs.strs ++ [σ.skipWs.inp.takeWhile (fun c => !isspace c)] }
        simp [ScanState.advance, ScanState.skipWs] at h ⊢
        omega

theorem inputFailure_ret (σ : ScanState) :
    σ.inputFailure.ret = -1
    ∨ σ.inputFailure.ret
        = ((σ.inputFailure.ints.length + σ.inputFailure.strs.length : Nat) : Int) := by
  by_cases h0 : σ.ints.length + σ.strs.length = 0
  · left
    simp only [ScanState.inputFailure, ScanState.assigned, h0, if_true]
  · right
    simp only [ScanState.inputFailure, ScanState.assigned, h0, if_false]

/-- The return value of a scan is `EOF` or the number of items it stored. -/
theorem scanLoop_ret (ds : List Directive) :
    ∀ σ : ScanState,
      (scanLoop ds σ).ret = -1
      ∨ (scanLoop ds σ).ret
          = (((scanLoop ds σ).ints.length + (scanLoop ds σ).strs.length : Nat) : Int) := by
  induction ds with
  | nil => intro σ; right; simp [scanLoop, ScanState.stop, ScanState.assigned]
  | cons d ds ih =>
    intro σ
    cases d with
    | ws => simp only [scanLoop]; exact ih _
    | lit c =>
      simp only [scanLoop]
      split
      · exact inputFailure_ret _
      · split
        · exact ih _
        · right; simp [ScanState.stop, ScanState.assigned]
    | conv_n => simp only [scanLoop]; exact ih _
    | conv_d =>
      simp only [scanLoop]
      split
      · exact inputFailure_ret _
      · split
        · right; simp [ScanState.stop, ScanState.assigned]
        · exact ih _
    | conv_i =>
      simp only [scanLoop]
      split
      · exact inputFailure_ret _
      · split
        · right; simp [ScanState.stop, ScanState.assigned]
        · exact ih _
    | conv_s =>
      simp only [scanLoop]
      split
      · exact inputFailure_ret _
      · exact ih _

/-- The scan of rule 5 stores through its single `%n` at most once. -/
theorem sscanf_ch_ns (token : List Char) :
    (sscanf token ":ch%i:DISPQ%n".toList).ns = []
    ∨ ∃ k, (sscanf token ":ch%i:DISPQ%n".toList).ns = [k] := by
  have h := scanLoop_ns_length (parseFormat ":ch%i:DISPQ%n".toList)
    { inp := token, nread := 0, ints := [], strs := [], ns := [] }
  have hc : (parseFormat ":ch%i:DISPQ%n".toList).count Directive.conv_n = 1 := by decide
  rw [hc] at h
  simp only [List.length_nil, Nat.zero_add] at h
  unfold sscanf
  generalize (scanLoop (parseFormat ":ch%i:DISPQ%n".toList)
    { inp := token, nread := 0, ints := [], strs := [], ns := [] }).ns = l at h ⊢
  match l, h with
  | [], _ => left; rfl
  | [k], _ => right; exact ⟨k, rfl⟩
  | _ :: _ :: _, h => simp at h

/-- When the scan of rule 6 returns 1 it has stored through its `%n`. -/
theorem sscanf_sour_ns (token : List Char)
    (h : (sscanf token "WAV:SOUR %s%n".toList).ret = 1) :
    ∃ k, (sscanf token "WAV:SOUR %s%n".toList).ns = [k] := by
  have hl := scanLoop_ns_length (parseFormat "WAV:SOUR %s%n".toList)
    { inp := token, nread := 0, ints := [], strs := [], ns := [] }
  have hc : (parseFormat "WAV:SOUR %s%n".toList).count Directive.conv_n = 1 := by decide
  rw [hc] at hl
  simp only [List.length_nil, Nat.zero_add] at hl
  have hpq := sscanf_sour_store_n token 0 1 h
  unfold sscanf at hpq ⊢
  generalize (scanLoop (parseFormat "WAV:SOUR %s%n".toList)
    { inp := token, nread := 0, ints := [], strs := [], ns := [] }) = r at hl hpq ⊢
  match hns : r.ns, hl with
  | [], _ => simp [ScanResult.store_n, hns] at hpq
  | [k], _ => exact ⟨k, rfl⟩
  | _ :: _ :: _, hl => simp at hl

/-- When the scan of rule 11 returns 1 it has stored its integer, so the
value `lev` had before the scan plays no part. -/
theorem sscanf_lev_store_d (token : List Char) (p q : Int)
    (h : (sscanf token "TRIG:EDGE:LEV  %d".toList).ret = 1) :
    (sscanf token "TRIG:EDGE:LEV  %d".toList).store_d p
      = (sscanf token "TRIG:EDGE:LEV  %d".toList).store_d q := by
  have hs := scanLoop_strs_length (parseFormat "TRIG:EDGE:LEV  %d".toList)
    { inp := token, nread := 0, ints := [], strs := [], ns := [] }
  have hc : (parseFormat "TRIG:EDGE:LEV  %d".toList).count Directive.conv_s = 0 := by decide
  rw [hc] at hs
  simp only [List.length_nil, Nat.zero_add, Nat.le_zero] at hs
  have hr := scanLoop_ret (parseFormat "TRIG:EDGE:LEV  %d".toList)
    { inp := token, nread := 0, ints := [], strs := [], ns := [] }
  unfold sscanf at h ⊢
  generalize (scanLoop (parseFormat "TRIG:EDGE:LEV  %d".toList)
    { inp := token, nread := 0, ints := [], strs := [], ns := [] }) = r at hs hr h ⊢
  rw [h, hs] at hr
  have hlen : r.ints.length = 1 := by
    rcases hr with e | e
    · omega
    · omega
  match hi : r.ints, hlen with
  | [v], _ => simp [ScanResult.store_d, hi]

/-! ## Traces -/

theorem stdoutOf_append (a b : List Event) :
    stdoutOf (a ++ b) = stdoutOf a ++ stdoutOf b := by
  induction a with
  | nil => rfl
  | cons e es ih => cases e <;> simp [stdoutOf, ih]

theorem effectsOf_append (a b : List Event) :
    effectsOf (a ++ b) = effectsOf a ++ effectsOf b := by
  induction a with
  | nil => rfl
  | cons e es ih => cases e <;> simp [effectsOf, ih]

theorem stdoutOf_fputs (s : List Char) : stdoutOf (fputs s) = s := by
  induction s with
  | nil => rfl
  | cons c cs ih =>
    simp only [fputs, List.map_cons, stdoutOf] at ih ⊢
    rw [ih]

theorem effectsOf_fputs (s : List Char) : effectsOf (fputs s) = [] := by
  induction s with
  | nil => rfl
  | cons c cs ih =>
    simp only [fputs, List.map_cons, effectsOf] at ih ⊢
    exact ih

/-! ## The chain against the rule table of the specification -/

theorem store_n_nil (r : ScanResult) (p : Int) (h : r.ns = []) : r.store_n p = p := by
  unfold ScanResult.store_n
  rw [h]
  rfl

theorem store_n_single (r : ScanResult) (p : Int) (k : Nat) (h : r.ns = [k]) :
    r.store_n p = (k : Int) := by
  unfold ScanResult.store_n
  rw [h]
  rfl

set_option maxRecDepth 100000 in
/-- On a token whose name fits `CHAN_Name`, and unless the scan of rule 5
stopped before its `%n` while `pos` happened to hold the token length, the
command chain takes the first rule of the specification's table that the
token hits, and writes `Error!` when there is none. -/
theorem dispatch_eq_specTable (cfg : Config) (u : Locals) (token : List Char)
    (hov : chanNameOverrun (sscanf token "WAV:SOUR %s%n".toList) = false)
    (hstale : ¬ ((sscanf token ":ch%i:DISPQ%n".toList).ret = 1
      ∧ (sscanf token ":ch%i:DISPQ%n".toList).ns = []
      ∧ u.pos = (token.length : Int))) :
    dispatch cfg u token
      = firstMatch (specTable cfg token) (fputs "Error!\n".toList) := by
  have h5 : ((sscanf token ":ch%i:DISPQ%n".toList).ret = 1
        ∧ (sscanf token ":ch%i:DISPQ%n".toList).store_n u.pos = (token.length : Int))
      ↔ ((sscanf token ":ch%i:DISPQ%n".toList).ret = 1
        ∧ (sscanf token ":ch%i:DISPQ%n".toList).ns = [token.length]) := by
    rcases sscanf_ch_ns token with e | ⟨k, e⟩
    · constructor
      · rintro ⟨h1, h2⟩
        rw [store_n_nil _ _ e] at h2
        exact absurd ⟨h1, e, h2⟩ hstale
      · rintro ⟨_, h2⟩
        rw [e] at h2
        simp at h2
    · constructor
      · rintro ⟨h1, h2⟩
        refine ⟨h1, ?_⟩
        rw [store_n_single _ _ k e] at h2
        rw [e, Int.ofNat.inj h2]
      · rintro ⟨h1, h2⟩
        refine ⟨h1, ?_⟩
        rw [store_n_single _ _ _ h2]
  have h6 : ((sscanf token "WAV:SOUR %s%n".toList).ret = 1
        ∧ (sscanf token "WAV:SOUR %s%n".toList).store_n
            ((sscanf token ":ch%i:DISPQ%n".toList).store_n u.pos) = (token.length : Int))
      ↔ ((sscanf token "WAV:SOUR %s%n".toList).ret = 1
        ∧ (sscanf token "WAV:SOUR %s%n".toList).ns = [token.length]) := by
    constructor
    · rintro ⟨h1, h2⟩
      obtain ⟨k, e⟩ := sscanf_sour_ns token h1
      refine ⟨h1, ?_⟩
      rw [store_n_single _ _ k e] at h2
      rw [e, Int.ofNat.inj h2]
    · rintro ⟨h1, h2⟩
      refine ⟨h1, ?_⟩
      rw [store_n_single _ _ _ h2]
  by_cases h11 : (sscanf token "TRIG:EDGE:LEV  %d".toList).ret = 1
  · have hs := sscanf_lev_store_d token u.lev 0 h11
    unfold dispatch
    simp only [specTable, firstMatch, decide_eq_true_eq, strcmp_eq_zero_iff, h5, h6, hov,
      Bool.false_eq_true, if_false, hs]
  · unfold dispatch
    simp only [specTable, firstMatch, decide_eq_true_eq, strcmp_eq_zero_iff, h5, h6, hov,
      Bool.false_eq_true, if_false, h11]

/-! ## Claims about the command chain as a whole -/

/-- C11 (evaluation at failing inputs): the token `:ch3` hits none of the 18
rules of the specification's table, yet with 4 in the uninitialised `pos`
the chain writes `1` and a newline, not `Error!`; the token `WAV:SOUR`,
twelve letters, TAB, `x` hits none either, yet the scan of rule 6 overruns
`CHAN_Name` and the behaviour is undefined.  On the token `bogus`, which
hits no rule, the chain writes exactly `Error!` and a newline. -/
theorem dispatch_unmatched_defects (cfg : Config) (u : Locals) :
    (specTable cfg ":ch3".toList).map (fun r => r.hit) = List.replicate 18 false
    ∧ dispatch cfg { pos := 4, lev := u.lev } ":ch3".toList = fputs "1\n".toList
    ∧ (specTable cfg "WAV:SOURabcdefghijkl\tx".toList).map (fun r => r.hit)
        = List.replicate 18 false
    ∧ chanNameOverrun (sscanf "WAV:SOURabcdefghijkl\tx".toList "WAV:SOUR %s%n".toList) = true
    ∧ dispatch cfg u "WAV:SOURabcdefghijkl\tx".toList = [Event.undefined]
    ∧ (specTable cfg "bogus".toList).map (fun r => r.hit) = List.replicate 18 false
    ∧ dispatch cfg u "bogus".toList = fputs "Error!\n".toList
    ∧ effectsOf (dispatch cfg u "bogus".toList) = [] := by
  have hb : dispatch cfg u "bogus".toList = fputs "Error!\n".toList := by
    simp +decide [dispatch]
  refine ⟨?_, ?_, ?_, by decide, ?_, ?_, hb, ?_⟩
  · simp +decide [specTable]
  · simp +decide [dispatch]
  · simp +decide [specTable]
  · simp +decide [dispatch]
  · simp +decide [specTable]
  · rw [hb, effectsOf_fputs]

theorem natDecimal_small (v : Nat) (h : v < 16) :
    natDecimal v = if v < 10 then [digitChar v] else ['1', digitChar (v - 10)] := by
  interval_cases v <;> simp [natDecimal] <;> decide

theorem land_15_lt (i : Nat) : i &&& 0xF < 16 :=
  Nat.lt_of_le_of_lt Nat.and_le_right (by norm_num)

theorem stdoutOf_flatMap (l : List Nat) (f : Nat → List Event) :
    stdoutOf (l.flatMap f) = l.flatMap (fun i => stdoutOf (f i)) := by
  induction l with
  | nil => rfl
  | cons x xs ih => simp only [List.flatMap_cons, stdoutOf_append, ih]

theorem effectsOf_flatMap (l : List Nat) (f : Nat → List Event) :
    effectsOf (l.flatMap f) = l.flatMap (fun i => effectsOf (f i)) := by
  induction l with
  | nil => rfl
  | cons x xs ih => simp only [List.flatMap_cons, effectsOf_append, ih]

theorem flatMap_const_singleton (n : Nat) (e : Event) :
    (List.range n).flatMap (fun _ => [e]) = List.replicate n e := by
  induction n with
  | zero => rfl
  | succ k ih =>
    rw [List.range_succ, List.flatMap_append, ih, List.replicate_succ']
    simp

theorem dispatch_on_wav_dataq (cfg : Config) (u : Locals) :
    dispatch cfg u "WAV:DATAQ".toList = wav_data := by
  unfold dispatch
  rw [if_pos (by decide)]

theorem fmt_d_nat (n : Nat) : fmt_d (n : Int) = natDecimal n := by
  simp [fmt_d]

theorem stdoutOf_wav_data :
    stdoutOf wav_data
      = (List.range 2000).flatMap (fun i => natDecimal (i &&& 0xF) ++ ['\n']) := by
  unfold wav_data
  rw [stdoutOf_flatMap]
  congr 1
  funext i
  rw [stdoutOf_append, stdoutOf_append, stdoutOf_fputs, stdoutOf_fputs, fmt_d_nat]
  have h1 : stdoutOf [Event.busy_wait 1] = [] := rfl
  have h2 : "\n".toList = ['\n'] := rfl
  rw [h1, h2, List.append_nil]

set_option maxRecDepth 1000000 in
/-- Counterexample to C12 as stated: the first eleven lines the chain
writes on `WAV:DATAQ` are `0` to `9` and then `10`, two decimal digits for
`10 & 0xF`, not one hexadecimal digit. -/
theorem dispatch_wav_data_counterexample :
    (stdoutOf (dispatch ⟨true, true, [], []⟩ ⟨0, 0⟩ "WAV:DATAQ".toList)).take 23
      = "0\n1\n2\n3\n4\n5\n6\n7\n8\n9\n10\n".toList := by
  rw [dispatch_on_wav_dataq, stdoutOf_wav_data]
  have hf : (fun i : Nat => natDecimal (i &&& 0xF) ++ ['\n'])
      = (fun i : Nat => (if i &&& 0xF < 10 then [digitChar (i &&& 0xF)]
          else ['1', digitChar ((i &&& 0xF) - 10)]) ++ ['\n']) := by
    funext i
    rw [natDecimal_small _ (land_15_lt i)]
  rw [hf]
  decide

/-- C12 (amended): on the token `WAV:DATAQ` the chain writes 2000 lines in
the order `i = 0 .. 1999`, each the decimal numeral of `i & 0xF`, as `%d`
prints it, followed by a newline: one digit for the values 0 to 9, the two
digits `10` to `15` for the values 10 to 15.  Its only other effect is one
`busy_wait(1)` per line. -/
theorem dispatch_wav_data (cfg : Config) (u : Locals) :
    stdoutOf (dispatch cfg u "WAV:DATAQ".toList)
      = (List.range 2000).flatMap (fun i => natDecimal (i &&& 0xF) ++ ['\n'])
    ∧ (∀ i : Nat, natDecimal (i &&& 0xF)
        = if i &&& 0xF < 10 then [digitChar (i &&& 0xF)]
          else ['1', digitChar ((i &&& 0xF) - 10)])
    ∧ effectsOf (dispatch cfg u "WAV:DATAQ".toList)
      = List.replicate 2000 (Event.busy_wait 1) := by
  refine ⟨?_, fun i => natDecimal_small _ (land_15_lt i), ?_⟩
  · rw [dispatch_on_wav_dataq, stdoutOf_wav_data]
  · rw [dispatch_on_wav_dataq]
    unfold wav_data
    rw [effectsOf_flatMap]
    have hf : (fun i : Nat => effectsOf (fputs (fmt_d ((i &&& 0xF : Nat) : Int))
          ++ [Event.busy_wait 1] ++ fputs "\n".toList))
        = (fun _ : Nat => [Event.busy_wait 1]) := by
      funext i
      rw [effectsOf_append, effectsOf_append, effectsOf_fputs, effectsOf_fputs]
      rfl
    rw [hf, flatMap_const_singleton]

/-! ## Whole lines through the service loop -/

/-- C13: the keystrokes `*IDN?` and newline, typed at program start, are
echoed and answered with exactly the identification string and a newline;
the token is `*IDN?`, and nothing but characters on `stdout` happens. -/
theorem serve_idn (cfg : Config) (u : Locals) :
    serve cfg u LineState.init "*IDN?\n".toList
      = fputs "*IDN?\n".toList ++ fputs "SD,SadOscilloscope,0,0.01-0.0-0.0\n".toList
    ∧ tokenOf (some '\n') (feed LineState.init "*IDN?".toList) = some "*IDN?".toList
    ∧ dispatch cfg u "*IDN?".toList = fputs "SD,SadOscilloscope,0,0.01-0.0-0.0\n".toList
    ∧ effectsOf (serve cfg u LineState.init "*IDN?\n".toList) = [] := by
  have hd : dispatch cfg u "*IDN?".toList
      = fputs "SD,SadOscilloscope,0,0.01-0.0-0.0\n".toList := by
    simp +decide [dispatch]
  have ht : tokenOf (some '\n') (feed LineState.init "*IDN?".toList)
      = some "*IDN?".toList := by decide
  have hs : serve cfg u LineState.init "*IDN?\n".toList
      = fputs "*IDN?\n".toList ++ fputs "SD,SadOscilloscope,0,0.01-0.0-0.0\n".toList := by
    have e : "*IDN?\n".toList = "*IDN?".toList ++ ['\n'] := by decide
    rw [e, serve_line_token cfg u _ '\n' _ _ (by decide) (by decide) ht, hd]
    have hev : (pollAll LineState.init "*IDN?".toList).flatMap (fun r => r.events)
        ++ (readstr (some '\n') (feed LineState.init "*IDN?".toList)).events
        = fputs ("*IDN?".toList ++ ['\n']) := by decide
    rw [← List.append_assoc, hev]
  refine ⟨hs, ht, hd, ?_⟩
  rw [hs, effectsOf_append, effectsOf_fputs, effectsOf_fputs]
  rfl

/-! ## Delete -/

theorem cstr_set_nul (s : List Char) (n : Nat) (h : n < s.length) :
    cstr (s.set n NUL) 0 = untilNul (s.take n) := by
  rw [List.set_eq_take_cons_drop NUL h]
  simp [cstr, untilNul_append_nul_left]

theorem readstr_on_delete (c : Char) (st : LineState) (hc : c = '\x7f' ∨ c = '\x08') :
    readstr (some c) st =
      if st.ptr > 0 then
        { st := { s := st.s, ptr := st.ptr - 1 },
          events := fputs "\x08 \x08".toList, ret := none }
      else { st := st, events := [], ret := none } := by
  simp only [readstr, hc, if_true]

/-- C14: a poll that finds a delete character (`0x7f` or `0x08`) while the
cursor is 0 does nothing: no event, the static state (buffer and cursor)
unchanged, `NULL` returned. -/
theorem readstr_delete_empty (st : LineState) (c : Char)
    (hc : c = '\x7f' ∨ c = '\x08') (hp : st.ptr = 0) :
    (readstr (some c) st).events = []
    ∧ stdoutOf (readstr (some c) st).events = []
    ∧ (readstr (some c) st).st = st
    ∧ (readstr (some c) st).ret = none := by
  have h : readstr (some c) st = { st := st, events := [], ret := none } := by
    rw [readstr_on_delete c st hc, if_neg (by omega)]
  rw [h]
  exact ⟨rfl, rfl, rfl, rfl⟩

/-- Witness for C14: the initial state polled with `0x7f`. -/
theorem readstr_delete_empty_witness :
    (readstr (some '\x7f') LineState.init).events = []
    ∧ (readstr (some '\x7f') LineState.init).st = LineState.init :=
  ⟨(readstr_delete_empty LineState.init '\x7f' (Or.inl rfl) rfl).1,
   (readstr_delete_empty LineState.init '\x7f' (Or.inl rfl) rfl).2.2.1⟩

/-- Counterexample to C15 as stated: after the keystrokes `a`, NUL, `b` the
cursor is 3; a delete and then CR hand over the line `a`.  That is neither
the typed characters without the last one (`a`, NUL) nor the line CR alone
would have handed over (`a`) without its last character. -/
theorem readstr_delete_positive_counterexample :
    (feed LineState.init ['a', NUL, 'b']).ptr = 3
    ∧ (feed LineState.init ['a', NUL, 'b']).s.take 3 = ['a', NUL, 'b']
    ∧ cstr (readstr (some '\r')
        (readstr (some '\x7f') (feed LineState.init ['a', NUL, 'b'])).st).st.s 0 = ['a']
    ∧ cstr (readstr (some '\r')
        (readstr (some '\x7f') (feed LineState.init ['a', NUL, 'b'])).st).st.s 0
        ≠ ((feed LineState.init ['a', NUL, 'b']).s.take 3).dropLast
    ∧ cstr (readstr (some '\r')
        (readstr (some '\x7f') (feed LineState.init ['a', NUL, 'b'])).st).st.s 0
        ≠ (cstr (readstr (some '\r') (feed LineState.init ['a', NUL, 'b'])).st.s 0).dropLast := by
  decide

/-- C15 (amended): in a state with a 64-slot buffer and cursor `n`,
`0 < n ≤ 63`, a poll that finds a delete character sets the cursor to
`n - 1`, leaves the buffer alone, writes exactly backspace, space, backspace
and returns `NULL`; a CR polled next returns the buffer, whose C string is
the first `n - 1` buffered characters up to their first NUL: the `n` typed
characters without the last one when none of the `n - 1` is NUL. -/
theorem readstr_delete_positive (st : LineState) (c : Char)
    (hc : c = '\x7f' ∨ c = '\x08') (hlen : st.s.length = 64)
    (hpos : 0 < st.ptr) (hptr : st.ptr ≤ 63) :
    (readstr (some c) st).st = { s := st.s, ptr := st.ptr - 1 }
    ∧ (readstr (some c) st).events = fputs "\x08 \x08".toList
    ∧ stdoutOf (readstr (some c) st).events = ['\x08', ' ', '\x08']
    ∧ (readstr (some c) st).ret = none
    ∧ (readstr (some '\r') (readstr (some c) st).st).ret = some 0
    ∧ cstr (readstr (some '\r') (readstr (some c) st).st).st.s 0
        = untilNul (st.s.take (st.ptr - 1))
    ∧ (NUL ∉ st.s.take (st.ptr - 1) →
        cstr (readstr (some '\r') (readstr (some c) st).st).st.s 0
          = (st.s.take st.ptr).dropLast) := by
  have h : readstr (some c) st =
      { st := { s := st.s, ptr := st.ptr - 1 },
        events := fputs "\x08 \x08".toList, ret := none } := by
    rw [readstr_on_delete c st hc, if_pos hpos]
  have hline : cstr (readstr (some '\r') (readstr (some c) st).st).st.s 0
      = untilNul (st.s.take (st.ptr - 1)) := by
    rw [h, readstr_cr_lf_eq '\r' _ (Or.inl rfl)]
    exact cstr_set_nul st.s (st.ptr - 1) (by omega)
  refine ⟨by rw [h], by rw [h], by rw [h]; rfl, by rw [h], ?_, hline, ?_⟩
  · rw [readstr_cr_lf_eq '\r' _ (Or.inl rfl)]
  · intro hn
    rw [hline, untilNul_of_not_mem _ hn, List.dropLast_eq_take, List.take_take,
      List.length_take]
    congr 1
    omega

/-- Witness for C15: the keystrokes `help`, then delete, then CR. -/
theorem readstr_delete_positive_witness :
    (readstr (some '\x7f') (feed LineState.init "help".toList)).st.ptr = 3
    ∧ cstr (readstr (some '\r')
        (readstr (some '\x7f') (feed LineState.init "help".toList)).st).st.s 0
      = "hel".toList := by
  have h := readstr_delete_positive (feed LineState.init "help".toList) '\x7f' (Or.inl rfl)
    (by decide) (by decide) (by decide)
  exact ⟨by rw [h.1]; decide, (h.2.2.2.2.2.2 (by decide)).trans (by decide)⟩

/-! ## The token of a completed line -/

theorem untilNul_split (a post : List Char) :
    ∃ post', a ++ NUL :: post = untilNul a ++ NUL :: post' ∧ NUL ∉ untilNul a := by
  induction a with
  | nil => exact ⟨post, rfl, by simp [untilNul]⟩
  | cons x xs ih =>
    by_cases hx : x = NUL
    · subst hx
      exact ⟨xs ++ NUL :: post, by simp [untilNul], by simp [untilNul]⟩
    · obtain ⟨post', h1, h2⟩ := ih
      refine ⟨post', by simp [untilNul, hx, h1], ?_⟩
      simp only [untilNul, hx, if_false, List.mem_cons, not_or]
      exact ⟨fun e => hx e.symm, h2⟩

theorem takeWhile_not_space_eq_self (line : List Char) (h : ' ' ∉ line) :
    line.takeWhile (fun c => decide (c ≠ ' ')) = line := by
  induction line with
  | nil => rfl
  | cons x xs ih =>
    have hx : x ≠ ' ' := fun e => h (by simp [e])
    have hxs : ' ' ∉ xs := fun e => h (by simp [e])
    have h2 := ih hxs
    simp only [List.takeWhile, hx, ne_eq, not_false_eq_true, decide_True]
    rw [h2]

/-- The token `get_token` returns for a line held at the start of memory. -/
theorem get_token_cstr (line post : List Char) (hnul : NUL ∉ line) :
    cstr (get_token (line ++ NUL :: post) 0).mem (get_token (line ++ NUL :: post) 0).token
      = line.takeWhile (fun c => decide (c ≠ ' ')) := by
  by_cases hsp : ' ' ∈ line
  · have hsplit := split_first_space line hsp
    have hns := space_not_mem_takeWhile line
    generalize line.takeWhile (fun c => decide (c ≠ ' ')) = a at hsplit hns ⊢
    generalize (line.dropWhile (fun c => decide (c ≠ ' '))).drop 1 = b at hsplit ⊢
    subst hsplit
    have ha0 : NUL ∉ a := fun e => hnul (by simp [e])
    have h := get_token_space_eq [] a b post hns ha0
    simp only [List.nil_append, List.length_nil, Nat.zero_add] at h
    have hmem : a ++ ' ' :: b ++ NUL :: post = a ++ ' ' :: (b ++ NUL :: post) := by simp
    rw [hmem, h]
    show cstr (a ++ NUL :: (b ++ NUL :: post)) 0 = a
    simp [cstr, untilNul_append_nul a _ ha0]
  · have h := get_token_nospace_eq [] line post hsp hnul
    simp only [List.nil_append, List.length_nil, Nat.zero_add] at h
    rw [h, takeWhile_not_space_eq_self line hsp]
    show cstr (line ++ NUL :: post) 0 = line
    simp [cstr, untilNul_append_nul line _ hnul]

/-- The token `console_service` passes on when CR or LF completes a line:
the completed line up to its first space. -/
theorem tokenOf_line (st : LineState) (c : Char) (hc : c = '\r' ∨ c = '\n')
    (hlt : st.ptr < st.s.length) :
    tokenOf (some c) st
      = some ((untilNul (st.s.take st.ptr)).takeWhile (fun c => decide (c ≠ ' '))) := by
  obtain ⟨post', h1, h2⟩ := untilNul_split (st.s.take st.ptr) (st.s.drop (st.ptr + 1))
  have hset : st.s.set st.ptr NUL = untilNul (st.s.take st.ptr) ++ NUL :: post' := by
    rw [List.set_eq_take_cons_drop NUL hlt, h1]
  have hr := readstr_cr_lf_eq c st hc
  simp only [tokenOf, hr, hset]
  rw [get_token_cstr _ post' h2]

/-- When CR or LF completes a line, what `console_service` does is the
newline echo followed by the command chain on the token, the completed line
up to its first space; so with the same configuration and the same values
of the uninitialised locals, two states whose completed lines have equal
tokens give the same events. -/
theorem console_service_same_locals (cfg : Config) (u : Locals)
    (st1 st2 : LineState) (c1 c2 : Char)
    (hc1 : c1 = '\r' ∨ c1 = '\n') (hc2 : c2 = '\r' ∨ c2 = '\n')
    (hl1 : st1.s.length = 64) (hp1 : st1.ptr ≤ 63)
    (hl2 : st2.s.length = 64) (hp2 : st2.ptr ≤ 63)
    (htok : (untilNul (st1.s.take st1.ptr)).takeWhile (fun c => decide (c ≠ ' '))
      = (untilNul (st2.s.take st2.ptr)).takeWhile (fun c => decide (c ≠ ' '))) :
    (console_service cfg u (some c1) st1).events
      = fputs "\n".toList
        ++ dispatch cfg u
            ((untilNul (st1.s.take st1.ptr)).takeWhile (fun c => decide (c ≠ ' ')))
    ∧ (console_service cfg u (some c1) st1).events
      = (console_service cfg u (some c2) st2).events := by
  have e1 : (console_service cfg u (some c1) st1).events
      = fputs "\n".toList
        ++ dispatch cfg u
            ((untilNul (st1.s.take st1.ptr)).takeWhile (fun c => decide (c ≠ ' '))) := by
    rw [console_service_events, tokenOf_line st1 c1 hc1 (by omega),
      readstr_cr_lf_eq c1 st1 hc1]
  have e2 : (console_service cfg u (some c2) st2).events
      = fputs "\n".toList
        ++ dispatch cfg u
            ((untilNul (st2.s.take st2.ptr)).takeWhile (fun c => decide (c ≠ ' '))) := by
    rw [console_service_events, tokenOf_line st2 c2 hc2 (by omega),
      readstr_cr_lf_eq c2 st2 hc2]
  exact ⟨e1, by rw [e1, e2, htok]⟩

/-- The lines `help anything` and `help` with the same locals. -/
theorem console_service_same_locals_example :
    (console_service ⟨true, true, [], []⟩ ⟨0, 0⟩ (some '\r')
        (feed LineState.init "help anything".toList)).events
      = (console_service ⟨true, true, [], []⟩ ⟨0, 0⟩ (some '\n')
        (feed LineState.init "help".toList)).events :=
  (console_service_same_locals ⟨true, true, [], []⟩ ⟨0, 0⟩
    (feed LineState.init "help anything".toList) (feed LineState.init "help".toList)
    '\r' '\n' (Or.inl rfl) (Or.inr rfl) (by decide) (by decide) (by decide) (by decide)
    (by decide)).2

/-- C16 (evaluation at failing inputs): the lines `:ch3456789 x` and
`:ch3456789` have the same token, `:ch3456789`.  Completed while the
uninitialised `pos` holds 10, the first is answered with `1`; completed
while it holds 0, the second is answered with `Error!`: the scan of rule 5
returns 1 and stops before its `%n`, and the stale `pos` is compared with
the token length 10.  With one and the same value of the locals the two
lines are answered alike. -/
theorem console_service_stale_pos (cfg : Config) (u : Locals) :
    tokenOf (some '\n') (feed LineState.init ":ch3456789 x".toList)
      = some ":ch3456789".toList
    ∧ tokenOf (some '\n') (feed LineState.init ":ch3456789".toList)
      = some ":ch3456789".toList
    ∧ (console_service cfg { pos := 10, lev := u.lev } (some '\n')
        (feed LineState.init ":ch3456789 x".toList)).events
      = fputs "\n".toList ++ fputs "1\n".toList
    ∧ (console_service cfg { pos := 0, lev := u.lev } (some '\n')
        (feed LineState.init ":ch3456789".toList)).events
      = fputs "\n".toList ++ fputs "Error!\n".toList
    ∧ (console_service cfg u (some '\n') (feed LineState.init ":ch3456789 x".toList)).events
      = (console_service cfg u (some '\n') (feed LineState.init ":ch3456789".toList)).events := by
  have ht1 : tokenOf (some '\n') (feed LineState.init ":ch3456789 x".toList)
      = some ":ch3456789".toList := by decide
  have ht2 : tokenOf (some '\n') (feed LineState.init ":ch3456789".toList)
      = some ":ch3456789".toList := by decide
  have hd1 : dispatch cfg { pos := 10, lev := u.lev } ":ch3456789".toList
      = fputs "1\n".toList := by
    simp +decide [dispatch]
  have hd0 : dispatch cfg { pos := 0, lev := u.lev } ":ch3456789".toList
      = fputs "Error!\n".toList := by
    simp +decide [dispatch]
  have he : ∀ (w : Locals) (st : LineState),
      tokenOf (some '\n') st = some ":ch3456789".toList →
      (console_service cfg w (some '\n') st).events
        = fputs "\n".toList ++ dispatch cfg w ":ch3456789".toList := by
    intro w st ht
    rw [console_service_events, ht, readstr_cr_lf_eq '\n' st (Or.inr rfl)]
  refine ⟨ht1, ht2, ?_, ?_, ?_⟩
  · rw [he _ _ ht1, hd1]
  · rw [he _ _ ht2, hd0]
  · rw [he _ _ ht1, he _ _ ht2]

/-! ## No token holds a space -/

theorem strchrFrom_none_not_mem (l : List Char) :
    ∀ i : Nat, strchrFrom ' ' l i = none → ' ' ∉ untilNul l := by
  induction l with
  | nil => intro i _; simp [untilNul]
  | cons x xs ih =>
    intro i h
    by_cases hx : x = ' '
    · simp [strchrFrom, hx] at h
    · by_cases h0 : x = NUL
      · simp [untilNul, h0]
      · simp only [strchrFrom, hx, h0, if_false] at h
        simp only [untilNul, h0, if_false, List.mem_cons, not_or]
        exact ⟨fun e => hx e.symm, ih (i + 1) h⟩

theorem strchrFrom_some_split (l : List Char) :
    ∀ i c : Nat, strchrFrom ' ' l i = some c →
      ∃ a r, l = a ++ ' ' :: r ∧ c = i + a.length ∧ ' ' ∉ a ∧ NUL ∉ a := by
  induction l with
  | nil => intro i c h; simp [strchrFrom] at h
  | cons x xs ih =>
    intro i c h
    by_cases hx : x = ' '
    · subst hx
      simp only [strchrFrom, if_true, Option.some.injEq] at h
      exact ⟨[], xs, rfl, by simp [h], by simp, by simp⟩
    · by_cases h0 : x = NUL
      · simp [strchrFrom, hx, h0] at h
        exact absurd h.1 (by decide)
      · simp only [strchrFrom, hx, h0, if_false] at h
        obtain ⟨a, r, e1, e2, e3, e4⟩ := ih (i + 1) c h
        refine ⟨x :: a, r, by rw [e1]; rfl, by simp [e2]; omega, ?_, ?_⟩
        · simp only [List.mem_cons, not_or]
          exact ⟨fun e => hx e.symm, e3⟩
        · simp only [List.mem_cons, not_or]
          exact ⟨fun e => h0 e.symm, e4⟩

/-- The token `get_token` returns never holds a space, whatever the memory. -/
theorem get_token_token_no_space (mem : List Char) (p : Nat) :
    ' ' ∉ cstr (get_token mem p).mem (get_token mem p).token := by
  cases h : strchr mem p ' ' with
  | none =>
    simp only [get_token, h]
    exact strchrFrom_none_not_mem _ p h
  | some c =>
    simp only [get_token, h]
    obtain ⟨a, r, e1, e2, e3, e4⟩ := strchrFrom_some_split _ p c h
    have hp : p ≤ mem.length := by
      by_contra hgt
      have : mem.drop p = [] := List.drop_eq_nil_of_le (by omega)
      rw [this] at e1
      simp at e1
    have hmem : mem = mem.take p ++ (a ++ ' ' :: r) := by
      rw [← e1, List.take_append_drop]
    have hlen : (mem.take p).length = p := by
      rw [List.length_take]; omega
    have hset : mem.set c NUL = mem.take p ++ (a ++ NUL :: r) := by
      have := set_append_mid (mem.take p) a r ' ' NUL
      rw [hlen, ← e2, ← hmem] at this
      exact this
    rw [hset]
    have hc : cstr (mem.take p ++ (a ++ NUL :: r)) p = a := by
      have := cstr_append (mem.take p) (a ++ NUL :: r)
      rw [hlen] at this
      rw [this, untilNul_append_nul a r e4]
    rw [hc]
    exact e3

theorem tokenOf_no_space (a : Option Char) (st : LineState) (tok : List Char)
    (h : tokenOf a st = some tok) : ' ' ∉ tok := by
  unfold tokenOf at h
  split at h
  · simp at h
  · rw [← Option.some.inj h]
    exact get_token_token_no_space _ _

/-! ## Rule 11 -/

/-- On a token that begins with `T`, only rule 11 can match. -/
theorem dispatch_T (cfg : Config) (u : Locals) (rest : List Char) :
    dispatch cfg u ('T' :: rest) =
      if (sscanf ('T' :: rest) "TRIG:EDGE:LEV  %d".toList).ret = 1 then
        [Event.leds_out_write
          ((sscanf ('T' :: rest) "TRIG:EDGE:LEV  %d".toList).store_d u.lev)]
          ++ fputs "LEVVV\n".toList
      else fputs "Error!\n".toList := by
  have h5 : (sscanf ('T' :: rest) ":ch%i:DISPQ%n".toList).ret = 0 :=
    sscanf_head_mismatch 'T' ':' _ _ (by decide) (by decide) (by decide)
  have h6 : (sscanf ('T' :: rest) "WAV:SOUR %s%n".toList).ret = 0 :=
    sscanf_head_mismatch 'T' 'W' _ _ (by decide) (by decide) (by decide)
  have hov : chanNameOverrun (sscanf ('T' :: rest) "WAV:SOUR %s%n".toList) = false := by
    have hs : (sscanf ('T' :: rest) "WAV:SOUR %s%n".toList).strs = [] :=
      sscanf_head_mismatch_strs 'T' 'W' _ _ (by decide) (by decide) (by decide)
    rw [chanNameOverrun, hs]
    rfl
  unfold dispatch
  simp only [strcmp_eq_zero_iff, h5, h6, hov]
  simp +decide

theorem toInt32_of_range (n : Int) (hlo : -2 ^ 31 ≤ n) (hhi : n < 2 ^ 31) :
    toInt32 n = n := by
  unfold toInt32
  have h : (n + 2 ^ 31) % 2 ^ 32 = n + 2 ^ 31 :=
    Int.emod_eq_of_lt (by omega) (by omega)
  rw [h]
  omega

/-- The scan of rule 11 on the token `TRIG:EDGE:LEV<n>`. -/
theorem sscanf_trig_lev (n : Int) :
    sscanf ("TRIG:EDGE:LEV".toList ++ fmt_d n) "TRIG:EDGE:LEV  %d".toList
      = { ret := 1, ints := [toInt32 n], strs := [], ns := [] } := by
  have hfmt : parseFormat "TRIG:EDGE:LEV  %d".toList
      = "TRIG:EDGE:LEV".toList.map Directive.lit
          ++ [Directive.ws, Directive.ws, Directive.conv_d] := by
    decide
  obtain ⟨x, t, hx, hsp⟩ := fmt_d_head n
  have hskip : ∀ k : Nat, ({ inp := fmt_d n, nread := k, ints := [], strs := [], ns := [] }
      : ScanState).skipWs
      = { inp := fmt_d n, nread := k, ints := [], strs := [], ns := [] } := by
    intro k
    simp [ScanState.skipWs, hx, List.dropWhile, List.takeWhile, hsp]
  have hnil : endsNumeral [] := by
    intro y r' h
    simp at h
  have hd := scanLoop_conv_d_fmt n [] [] hnil (0 + "TRIG:EDGE:LEV".toList.length) [] [] []
  rw [List.append_nil] at hd
  have hws : ∀ (ds : List Directive) (σ : ScanState),
      scanLoop (Directive.ws :: ds) σ = scanLoop ds σ.skipWs := by
    intro ds σ
    simp only [scanLoop]
  rw [sscanf, hfmt, scanLoop_lits, hws, hskip, hws, hskip, hd]
  simp [scanLoop, ScanState.stop, ScanState.assigned]

/-! ## Typing a line of ordinary characters at program start -/

/-- The echo of ordinary characters typed into free slots of the buffer. -/
theorem pollAll_ordinary_events (cs : List Char) :
    ∀ (pre mid post : List Char), mid.length = cs.length →
      pre.length + cs.length ≤ 63 → (∀ c ∈ cs, ordinary c) → NUL ∉ cs →
      (pollAll { s := pre ++ (mid ++ post), ptr := pre.length } cs).flatMap
          (fun r => r.events) = fputs cs := by
  induction cs with
  | nil => intro pre mid post _ _ _ _; rfl
  | cons c cs ih =>
    intro pre mid post hm hl hord hnul
    cases mid with
    | nil => simp at hm
    | cons m mid =>
      have hc : ordinary c := hord c (by simp)
      have hc0 : c ≠ NUL := fun e => hnul (by simp [e])
      have hp : pre.length < 63 := by simp at hl; omega
      have hset : (pre ++ (m :: mid ++ post)).set pre.length c
          = (pre ++ [c]) ++ (mid ++ post) := by
        have := set_append_mid pre [] (mid ++ post) m c
        simp at this ⊢
      have hstep : readstr (some c) { s := pre ++ (m :: mid ++ post), ptr := pre.length }
          = { st := { s := (pre ++ [c]) ++ (mid ++ post), ptr := (pre ++ [c]).length },
              events := fputs (untilNul [c, NUL]), ret := none } := by
        rw [readstr_ordinary c _ hc hp]
        simp only [hset, List.length_append, List.length_singleton]
      have hih := ih (pre ++ [c]) mid post (by simpa using hm)
        (by simp at hl ⊢; omega) (fun x hx => hord x (by simp [hx]))
        (fun e => hnul (by simp [e]))
      have hecho : fputs (untilNul [c, NUL]) = [Event.out c] := by
        simp [untilNul, hc0, fputs]
      simp only [pollAll, hstep, List.flatMap_cons, hih, hecho]
      rfl

theorem init_split (k : Nat) (hk : k ≤ 64) :
    LineState.init
      = { s := [] ++ (List.replicate k NUL ++ List.replicate (64 - k) NUL),
          ptr := ([] : List Char).length } := by
  have h : List.replicate 64 NUL
      = List.replicate k NUL ++ List.replicate (64 - k) NUL := by
    rw [List.append_replicate_replicate]
    congr 1
    omega
  simp only [LineState.init, h, List.nil_append, List.length_nil]

/-- Typing a line of ordinary characters, none of them NUL or a space, and
a newline at program start: the echo, then the command chain on the whole
line as token. -/
theorem serve_plain_line (cfg : Config) (u : Locals) (line : List Char)
    (hlen : line.length ≤ 63) (hord : ∀ c ∈ line, ordinary c)
    (hnul : NUL ∉ line) (hsp : ' ' ∉ line) :
    tokenOf (some '\n') (feed LineState.init line) = some line
    ∧ serve cfg u LineState.init (line ++ ['\n'])
        = fputs (line ++ ['\n']) ++ dispatch cfg u line := by
  have hcr : '\r' ∉ line := fun h => (hord _ h).2.2.2.1 rfl
  have hlf : '\n' ∉ line := fun h => (hord _ h).2.2.2.2 rfl
  have hinit := init_split line.length (by omega)
  have hfeed : feed LineState.init line
      = { s := line ++ List.replicate (64 - line.length) NUL, ptr := line.length } := by
    rw [hinit, feed_ordinary line [] _ _ (by simp) (by simpa using hlen) hord]
    simp
  have hecho : (pollAll LineState.init line).flatMap (fun r => r.events) = fputs line := by
    rw [hinit]
    exact pollAll_ordinary_events line [] _ _ (by simp) (by simpa using hlen) hord hnul
  have htok : tokenOf (some '\n') (feed LineState.init line) = some line := by
    rw [tokenOf_line _ '\n' (Or.inr rfl) (by rw [hfeed]; simp; omega), hfeed]
    simp only [List.take_left']
    rw [untilNul_of_not_mem line hnul, takeWhile_not_space_eq_self line hsp]
  refine ⟨htok, ?_⟩
  rw [serve_line_token cfg u line '\n' _ line hcr hlf htok, hecho,
    readstr_cr_lf_eq '\n' _ (Or.inr rfl)]
  simp [fputs]

/-! ## The line `TRIG:EDGE:LEV<n>` -/

theorem digitChar_plain (d : Nat) (h : d < 10) :
    ordinary (digitChar d) ∧ digitChar d ≠ NUL ∧ digitChar d ≠ ' ' := by
  interval_cases d <;> decide

theorem natDecimal_plain (m : Nat) :
    ∀ c ∈ natDecimal m, ordinary c ∧ c ≠ NUL ∧ c ≠ ' ' := by
  obtain ⟨d, ds, hshape, hlt, _, _⟩ := natDecimal_shape m
  intro c hc
  rw [hshape, List.mem_map] at hc
  obtain ⟨x, hx, rfl⟩ := hc
  exact digitChar_plain x (hlt x hx)

theorem fmt_d_plain (n : Int) : ∀ c ∈ fmt_d n, ordinary c ∧ c ≠ NUL ∧ c ≠ ' ' := by
  obtain ⟨hneg, hpos⟩ := natAbs_fmt n
  intro c hc
  by_cases h : n < 0
  · rw [(hneg h).1, List.mem_cons] at hc
    rcases hc with e | e
    · rw [e]; decide
    · exact natDecimal_plain _ c e
  · rw [(hpos h).1] at hc
    exact natDecimal_plain _ c hc

theorem natDecimal_length (m : Nat) (h : m ≤ 2 ^ 31) : (natDecimal m).length ≤ 10 := by
  by_cases hm : m = 0
  · simp [natDecimal, hm]
  · have h1 := Nat.le_digits_len_le 10 m (2 ^ 31) h
    have h2 : (Nat.digits 10 (2 ^ 31)).length = 10 := by norm_num
    simp only [natDecimal, hm, if_false, List.length_map, List.length_reverse]
    omega

theorem fmt_d_length (n : Int) (hlo : -2 ^ 31 ≤ n) (hhi : n < 2 ^ 31) :
    (fmt_d n).length ≤ 11 := by
  obtain ⟨hneg, hpos⟩ := natAbs_fmt n
  have habs : n.natAbs ≤ 2 ^ 31 := by omega
  have hl := natDecimal_length n.natAbs habs
  by_cases h : n < 0
  · rw [(hneg h).1, List.length_cons]; omega
  · rw [(hpos h).1]; omega

/-- C17: for every integer `n` in the range of `int`, written in decimal,
the token `TRIG:EDGE:LEV<n>` is taken by rule 11: the chain calls
`leds_out_write(n)` and writes `LEVVV` and a newline.  The line typed at
program start reaches the chain whole, as this token, and is answered so;
and no token the chain is ever given holds a space. -/
theorem dispatch_trig_lev (cfg : Config) (u : Locals) (n : Int)
    (hlo : -2 ^ 31 ≤ n) (hhi : n < 2 ^ 31) :
    dispatch cfg u ("TRIG:EDGE:LEV".toList ++ fmt_d n)
      = [Event.leds_out_write n] ++ fputs "LEVVV\n".toList
    ∧ tokenOf (some '\n') (feed LineState.init ("TRIG:EDGE:LEV".toList ++ fmt_d n))
      = some ("TRIG:EDGE:LEV".toList ++ fmt_d n)
    ∧ serve cfg u LineState.init ("TRIG:EDGE:LEV".toList ++ fmt_d n ++ ['\n'])
      = fputs ("TRIG:EDGE:LEV".toList ++ fmt_d n ++ ['\n'])
          ++ ([Event.leds_out_write n] ++ fputs "LEVVV\n".toList)
    ∧ ∀ (a : Option Char) (st : LineState) (tok : List Char),
        tokenOf a st = some tok → ' ' ∉ tok := by
  have hs := sscanf_trig_lev n
  have hd : dispatch cfg u ("TRIG:EDGE:LEV".toList ++ fmt_d n)
      = [Event.leds_out_write n] ++ fputs "LEVVV\n".toList := by
    have hT : "TRIG:EDGE:LEV".toList ++ fmt_d n
        = 'T' :: ("RIG:EDGE:LEV".toList ++ fmt_d n) := rfl
    have h := dispatch_T cfg u ("RIG:EDGE:LEV".toList ++ fmt_d n)
    rw [← hT, hs] at h
    rw [h, if_pos rfl]
    simp [ScanResult.store_d, toInt32_of_range n hlo hhi]
  have hkw : ∀ c ∈ "TRIG:EDGE:LEV".toList, ordinary c ∧ c ≠ NUL ∧ c ≠ ' ' := by decide
  have hall : ∀ c ∈ "TRIG:EDGE:LEV".toList ++ fmt_d n, ordinary c ∧ c ≠ NUL ∧ c ≠ ' ' := by
    intro c hc
    rcases List.mem_append.mp hc with e | e
    · exact hkw c e
    · exact fmt_d_plain n c e
  have hlen : ("TRIG:EDGE:LEV".toList ++ fmt_d n).length ≤ 63 := by
    have := fmt_d_length n hlo hhi
    rw [List.length_append]
    have h13 : "TRIG:EDGE:LEV".toList.length = 13 := rfl
    omega
  have hline := serve_plain_line cfg u ("TRIG:EDGE:LEV".toList ++ fmt_d n) hlen
    (fun c hc => (hall c hc).1) (fun h => (hall _ h).2.1 rfl) (fun h => (hall _ h).2.2 rfl)
  refine ⟨hd, hline.1, ?_, fun a st tok h => tokenOf_no_space a st tok h⟩
  rw [hline.2, hd]

/-- Witness for C17: the token `TRIG:EDGE:LEV7`. -/
theorem dispatch_trig_lev_witness :
    dispatch ⟨true, true, [], []⟩ ⟨0, 0⟩ "TRIG:EDGE:LEV7".toList
      = [Event.leds_out_write 7] ++ fputs "LEVVV\n".toList := by
  have h7 : fmt_d 7 = ['7'] := by
    simp [fmt_d, natDecimal]; decide
  have h := (dispatch_trig_lev ⟨true, true, [], []⟩ ⟨0, 0⟩ 7 (by norm_num) (by norm_num)).1
  rw [h7] at h
  exact h

/-! ## Buffer writes stay in bounds -/

theorem reachable_bounds (st : LineState) (h : Reachable st) :
    st.ptr ≤ 63 ∧ st.s.length = 64 := by
  induction h with
  | init => exact ⟨by decide, by decide⟩
  | poll a st _ ih =>
    exact ⟨readstr_ptr_le a st ih.1, by rw [readstr_length, ih.2]⟩
  | service cfg u a st _ ih =>
    obtain ⟨h1, h2⟩ := console_service_ptr_length cfg u a st
    exact ⟨by rw [h1]; exact readstr_ptr_le a st ih.1,
           by rw [h2, readstr_length, ih.2]⟩

theorem readstr_no_write (a : Option Char) (st : LineState)
    (h : ∀ c, a = some c → ¬ ordinary c ∧ c ≠ '\r' ∧ c ≠ '\n') :
    (readstr a st).st.s = st.s := by
  cases a with
  | none => rfl
  | some c =>
    obtain ⟨h1, h2, h3⟩ := h c rfl
    by_cases hd : c = '\x7f' ∨ c = '\x08'
    · rw [readstr_on_delete c st hd]
      split <;> rfl
    · by_cases hb : c = '\x07'
      · rw [hb, readstr_bell]
      · exact absurd ⟨fun e => hd (Or.inl e), fun e => hd (Or.inr e), hb, h2, h3⟩ h1

/-- C18: in every reachable state the cursor is at most 63 and the buffer
has 64 slots, so every write of `readstr` into the buffer is in bounds: on
CR or LF the terminator goes to index cursor, below 64; an ordinary
character is either dropped or goes to index cursor, below 63; and no other
poll writes into the buffer. -/
theorem reachable_writes_in_bounds (st : LineState) (h : Reachable st) :
    st.ptr ≤ 63 ∧ st.s.length = 64
    ∧ (∀ c : Char, c = '\r' ∨ c = '\n' →
        (readstr (some c) st).st.s = st.s.set st.ptr NUL
        ∧ st.ptr < 64 ∧ st.ptr < st.s.length)
    ∧ (∀ c : Char, ordinary c →
        (readstr (some c) st).st.s = st.s
        ∨ ((readstr (some c) st).st.s = st.s.set st.ptr c
            ∧ st.ptr < 63 ∧ st.ptr < st.s.length))
    ∧ (∀ a : Option Char, (∀ c, a = some c → ¬ ordinary c ∧ c ≠ '\r' ∧ c ≠ '\n') →
        (readstr a st).st.s = st.s) := by
  obtain ⟨hp, hl⟩ := reachable_bounds st h
  refine ⟨hp, hl, ?_, ?_, fun a ha => readstr_no_write a st ha⟩
  · intro c hc
    rw [readstr_cr_lf_eq c st hc]
    exact ⟨rfl, by omega, by omega⟩
  · intro c hc
    by_cases hfull : 63 ≤ st.ptr
    · left
      rw [readstr_ordinary_full c st hc hfull]
    · right
      rw [readstr_ordinary c st hc (by omega)]
      exact ⟨rfl, by omega, by omega⟩

set_option maxRecDepth 100000 in
/-- Witness for C18: the state after 63 keystrokes `a`, where the cursor is
63: CR writes the terminator at index 63. -/
theorem reachable_writes_in_bounds_witness :
    (feed LineState.init (List.replicate 63 'a')).ptr ≤ 63
    ∧ (readstr (some '\r') (feed LineState.init (List.replicate 63 'a'))).st.s
        = (feed LineState.init (List.replicate 63 'a')).s.set 63 NUL := by
  have h := reachable_writes_in_bounds (feed LineState.init (List.replicate 63 'a'))
    (reachable_feed _ _ Reachable.init)
  have hp : (feed LineState.init (List.replicate 63 'a')).ptr = 63 := by decide
  refine ⟨h.1, ?_⟩
  have h2 := (h.2.2.1 '\r' (Or.inl rfl)).1
  rw [hp] at h2
  exact h2

/-! ## CR followed by LF -/

end LycheeMSO
